import Mathlib

/-!
Verification development for the funyu markup language parser
(files funyu.py and hunyu.py: two near-duplicate implementations of a
line-oriented blog markup language).

Strings are modelled as lists of characters (`Str`).  Python's inline
scanners are embedded as executable fueled functions; recursion into the
content of a nested span consumes one unit of fuel, and every string of
length n needs at most n + 1 fuel, which is what the top-level wrappers
supply.  Lines reaching the inline scanners never contain a newline
character (the document drivers reject such lines before any parsing), so
the Python-regex subtlety that a dot does not match a newline is
irrelevant for every reachable input and is not modelled.
-/

namespace FunyuProof

abbrev Str := List Char

/-- Helper turning a Lean string literal into the character-list model. -/
def str (s : String) : Str := s.data

/-- Characters stripped by Python str.strip. -/
def isPySpace (c : Char) : Bool :=
  c = ' ' || c = '\t' || c = '\n' || c = '\r' || c = '\x0b' || c = '\x0c'

/-- Python str.strip: whitespace removed from both ends. -/
def strip (s : Str) : Str :=
  ((s.dropWhile isPySpace).reverse.dropWhile isPySpace).reverse

/-- Python str.split(sep) for a one-character separator. -/
def splitOnChar (c : Char) : Str → List Str
  | [] => [[]]
  | x :: xs =>
    if x = c then [] :: splitOnChar c xs
    else
      match splitOnChar c xs with
      | [] => [[x]]
      | h :: t => (x :: h) :: t

/-- Python string join for a one-character separator. -/
def joinWith (c : Char) : List Str → Str
  | [] => []
  | [x] => x
  | x :: xs => x ++ c :: joinWith c xs

/-- The line-boundary characters of Python str.splitlines: newline,
carriage return, vertical tab, form feed, the file/group/record
separators, next line, and the Unicode line and paragraph separators. -/
def isLineBoundary (c : Char) : Bool :=
  c = '\n' || c = '\r' || c = '\x0b' || c = '\x0c' || c = '\x1c' ||
    c = '\x1d' || c = '\x1e' || c = '\x85' || c = '\u2028' || c = '\u2029'

/-- Python str.splitlines, fueled: the accumulator holds the reversed
current line; each line-boundary character ends a line, a carriage
return immediately followed by a newline counts as one boundary, and a
trailing boundary produces no final empty line. -/
def splitLinesAux : Nat → Str → Str → List Str
  | 0, _, _ => []
  | _ + 1, [], acc => if acc = [] then [] else [acc.reverse]
  | f + 1, c :: rest, acc =>
    if isLineBoundary c then
      acc.reverse ::
        (if c = '\r' ∧ rest.take 1 = ['\n'] then splitLinesAux f (rest.drop 1) []
         else splitLinesAux f rest [])
    else splitLinesAux f rest (c :: acc)

/-- Python str.splitlines. -/
def splitLines (s : Str) : List Str := splitLinesAux (s.length + 1) s []

/-- Python str.replace for a one-character pattern. -/
def replaceAll (s : Str) (c : Char) (r : Str) : Str :=
  match s with
  | [] => []
  | x :: xs => (if x = c then r else [x]) ++ replaceAll xs c r

/-!  ## Inline span model

One parsed inline element: a literal text run or a typed span.  Keyword,
emphasis and link content is itself a span sequence (the source re-runs
the inline scanner on it); inline code text and image alt text are stored
verbatim.
-/

inductive Span : Type where
  | lit : Str → Span
  | keyword : List Span → Span
  | emphasis : List Span → Span
  | code : Str → Span
  | link : List Span → Str → Span
  | imageLink : Str → Str → Span

/-!  ## The link regex, shared by both variants

Pattern (funyu `String.link`, last alternative of hunyu `String.splitter`):
an opening square bracket, an optional literal IMG-colon tag, a greedy
text group, a closing square bracket followed by an opening parenthesis,
a greedy uri group, a closing parenthesis.  Python's leftmost/greedy
backtracking semantics is implemented explicitly: the text group extends
to the last close-open pair that still leaves a closing parenthesis, and
the uri group extends to the last closing parenthesis.
-/

/-- Largest index j not exceeding the third argument at which `pat` is a
prefix of the remaining text, mirroring the backtracking search of a
greedy dot-star followed by a literal pattern. -/
def lastMatchAux (pat s : Str) : Nat → Option Nat
  | 0 => if pat.isPrefixOf s then some 0 else none
  | n + 1 =>
    if pat.isPrefixOf (s.drop (n + 1)) then some (n + 1)
    else lastMatchAux pat s n

/-- Largest index at which `pat` occurs in `s`. -/
def lastMatch (pat s : Str) : Option Nat := lastMatchAux pat s s.length

/-- One successful link-pattern match. -/
structure LinkM where
  isImg : Bool
  text : Str
  uri : Str
  len : Nat
deriving DecidableEq

/-- Match of the link pattern's body (everything after the opening square
bracket and optional IMG tag): greedy text group, close-open separator,
greedy uri group, final closing parenthesis.  Returns text, uri and the
number of characters consumed. -/
def linkBody (rest : Str) : Option (Str × Str × Nat) :=
  (lastMatch [')'] rest).bind (fun k =>
    if 2 ≤ k then
      (lastMatchAux (str "](") rest (k - 2)).map (fun j =>
        (rest.take j, ((rest.drop (j + 2)).take (k - (j + 2)), k + 1)))
    else none)

/-- Match of the full link pattern at the start of `s`.  The IMG-tagged
alternative is tried first, falling back to the untagged one, exactly as
in the regex alternation. -/
def linkMatchAt (s : Str) : Option LinkM :=
  match s with
  | [] => none
  | c :: rest =>
    if c = '[' then
      if (str "IMG:").isPrefixOf rest then
        match linkBody (rest.drop 4) with
        | some (t, u, n) => some ⟨true, t, u, 5 + n⟩
        | none => (linkBody rest).map (fun p => ⟨false, p.1, p.2.1, 1 + p.2.2⟩)
      else (linkBody rest).map (fun p => ⟨false, p.1, p.2.1, 1 + p.2.2⟩)
    else none

/-- Leftmost link-pattern match: position and match data
(re.finditer / re.search find the match starting earliest). -/
def findLink : Str → Option (Nat × LinkM)
  | [] => none
  | s@(_ :: rest) =>
    match linkMatchAt s with
    | some m => some (0, m)
    | none =>
      match findLink rest with
      | some (p, m) => some (p + 1, m)
      | none => none

/-- re.search on the link pattern: does any position match?
Used by funyu's nested-link check. -/
def linkSearch (s : Str) : Bool := (findLink s).isSome

/-- All link-pattern matches of re.finditer: the list of
gap-before-match and match pairs, plus the trailing gap. -/
def splitLinksF : Nat → Str → List (Str × LinkM) × Str
  | 0, s => ([], s)
  | f + 1, s =>
    match findLink s with
    | none => ([], s)
    | some (p, m) =>
      ((s.take p, m) :: (splitLinksF f (s.drop (p + m.len))).1,
        (splitLinksF f (s.drop (p + m.len))).2)

/-- re.finditer of the link pattern over `s` (every match consumes at
least four characters, so length-many steps of fuel always suffice). -/
def splitLinks (s : Str) : List (Str × LinkM) × Str :=
  splitLinksF (s.length + 1) s

/-!  ## funyu's scanner: depth-tracked bracket matching -/

/-- funyu `findClose` helper body: walk the string keeping a depth level,
incrementing at each occurrence of the open delimiter and decrementing at
each occurrence of the close delimiter; answer the index where the level
first reaches minus one, if any. -/
def findCloseAux (op cl : Str) : Str → Int → Nat → Option Nat
  | [], _, _ => none
  | s@(_ :: rest), lvl, i =>
    let lvl' :=
      if op.isPrefixOf s then lvl + 1
      else if cl.isPrefixOf s then lvl - 1
      else lvl
    if lvl' = -1 then some i else findCloseAux op cl rest lvl' (i + 1)

/-- funyu `findClose`: index of the depth-balanced close delimiter, or
none (the source raises the close-bracket syntax error). -/
def findClose (s op cl : Str) : Option Nat := findCloseAux op cl s 0 0

/-- Error message of funyu's unmatched-bracket failure. -/
def closeMsg : Str := str "inline element is required close bracket."

/-- Error message of funyu's nested-link failure. -/
def nestMsg : Str := str "link element can't including link."

/-- funyu `procStr` loop.  Arguments: content parser for nested spans,
fuel (the length of the remaining suffix plus one always suffices), the
remaining suffix, the pending literal accumulated since the last flush
(reversed), and whether the key check is skipped for the first character.
The skip flag models the source's unconditional index increment after a
span: the character immediately following a close delimiter is never
tested as the start of a delimiter (it still joins the next literal). -/
def procStrLoop (parse : Str → Except Str (List Span)) :
    Nat → Str → Str → Bool → Except Str (List Span)
  | 0, _, _, _ => .error (str "INSUFFICIENT FUEL")
  | _ + 1, [], pend, _ =>
    .ok (if pend = [] then [] else [.lit pend.reverse])
  | f + 1, s@(c :: rest), pend, skip =>
    if skip = false ∧ (s.take 2 = str "[[" ∨ s.take 2 = str "<<" ∨
        s.take 2 = str "\x7b\x7b") then
      if s.take 2 = str "[[" then
        match findClose (s.drop 2) (str "[[") (str "]]") with
        | none => .error closeMsg
        | some n =>
          match (parse ((s.drop 2).take n)).map (fun l => Span.keyword l) with
          | .error e => .error e
          | .ok span =>
            match procStrLoop parse f ((s.drop 2).drop (n + 2)) [] true with
            | .error e => .error e
            | .ok restSpans => .ok (.lit pend.reverse :: span :: restSpans)
      else if s.take 2 = str "<<" then
        match findClose (s.drop 2) (str "<<") (str ">>") with
        | none => .error closeMsg
        | some n =>
          match (parse ((s.drop 2).take n)).map (fun l => Span.emphasis l) with
          | .error e => .error e
          | .ok span =>
            match procStrLoop parse f ((s.drop 2).drop (n + 2)) [] true with
            | .error e => .error e
            | .ok restSpans => .ok (.lit pend.reverse :: span :: restSpans)
      else
        match findClose (s.drop 2) (str "\x7b\x7b") (str "\x7d\x7d") with
        | none => .error closeMsg
        | some n =>
          match procStrLoop parse f ((s.drop 2).drop (n + 2)) [] true with
          | .error e => .error e
          | .ok restSpans =>
            .ok (.lit pend.reverse :: .code ((s.drop 2).take n) :: restSpans)
    else procStrLoop parse f rest (c :: pend) false

/-- funyu `String.__init__` link-pass assembly: for each link match the
gap before it is bracket-scanned, the match's text part is checked not to
itself contain a link pattern, and the link or image-link span is built
(link text is re-scanned after stripping, image alt text is stored
verbatim); the trailing gap is bracket-scanned last. -/
def funyuAssemble (parse : Str → Except Str (List Span))
    (procS : Str → Except Str (List Span)) :
    List (Str × LinkM) → Str → Except Str (List Span)
  | [], trailing => procS trailing
  | (gap, m) :: ps, trailing =>
    match procS gap with
    | .error e => .error e
    | .ok gapSpans =>
      if linkSearch m.text then .error nestMsg
      else
        match
          (if m.isImg then .ok (Span.imageLink (strip m.text) (strip m.uri))
           else (parse (strip m.text)).map
             (fun l => Span.link l (strip m.uri)) : Except Str Span) with
        | .error e => .error e
        | .ok span =>
          match funyuAssemble parse procS ps trailing with
          | .error e => .error e
          | .ok restSpans => .ok (gapSpans ++ span :: restSpans)

/-- funyu `String.__init__`, fueled: global link pass first, then the
depth-tracking bracket scan of the text between link matches. -/
def funyuStringF : Nat → Str → Except Str (List Span)
  | 0, _ => .error (str "INSUFFICIENT FUEL")
  | f + 1, s =>
    funyuAssemble (funyuStringF f)
      (fun t => procStrLoop (funyuStringF f) (t.length + 1) t [] false)
      (splitLinks s).1 (splitLinks s).2

/-- funyu `String.__init__`. -/
def funyuString (s : Str) : Except Str (List Span) :=
  funyuStringF (s.length + 1) s

/-!  ## hunyu's scanner: one greedy regex alternation pass -/

/-- One successful match of hunyu's `String.splitter` alternation. -/
inductive HMatch where
  | kw (content : Str) (len : Nat)
  | em (content : Str) (len : Nat)
  | cd (content : Str) (len : Nat)
  | lk (m : LinkM)

/-- One bracket alternative of the splitter: literal open delimiter, a
greedy dot-star group, literal close delimiter.  The greedy group runs to
the last occurrence of the close delimiter. -/
def bracketAlt (opc clc s : Str) : Option (Str × Nat) :=
  if opc.isPrefixOf s then
    match lastMatch clc (s.drop 2) with
    | some j => some ((s.drop 2).take j, j + 4)
    | none => none
  else none

/-- hunyu `String.splitter` at one position: the four alternatives tried
in the order of the pattern (keyword, emphasis, code, link). -/
def hunyuMatchAt (s : Str) : Option HMatch :=
  match bracketAlt (str "[[") (str "]]") s with
  | some (c, n) => some (.kw c n)
  | none =>
    match bracketAlt (str "<<") (str ">>") s with
    | some (c, n) => some (.em c n)
    | none =>
      match bracketAlt (str "\x7b\x7b") (str "\x7d\x7d") s with
      | some (c, n) => some (.cd c n)
      | none => (linkMatchAt s).map .lk

/-- Leftmost splitter match: position and match data. -/
def findHMatch : Str → Option (Nat × HMatch)
  | [] => none
  | s@(_ :: rest) =>
    match hunyuMatchAt s with
    | some m => some (0, m)
    | none =>
      match findHMatch rest with
      | some (p, m) => some (p + 1, m)
      | none => none

/-- Length consumed by a splitter match (always at least four). -/
def HMatch.mlen : HMatch → Nat
  | .kw _ n => n
  | .em _ n => n
  | .cd _ n => n
  | .lk m => m.len

/-- hunyu `String.__init__` loop over finditer: the gap before each match
is appended as a literal (empty gaps included), then the typed span;
the text after the last match is appended unconditionally.  hunyu never
raises during scanning. -/
def hunyuLoop (parse : Str → List Span) : Nat → Str → List Span
  | 0, s => [.lit s]
  | f + 1, s =>
    match findHMatch s with
    | none => [.lit s]
    | some (p, m) =>
      let span :=
        match m with
        | .kw c _ => Span.keyword (parse c)
        | .em c _ => Span.emphasis (parse c)
        | .cd c _ => Span.code c
        | .lk lm =>
          if lm.isImg then Span.imageLink (strip lm.text) (strip lm.uri)
          else Span.link (parse (strip lm.text)) (strip lm.uri)
      Span.lit (s.take p) :: span :: hunyuLoop parse f (s.drop (p + m.mlen))

/-- hunyu `String.__init__`, fueled. -/
def hunyuStringF : Nat → Str → List Span
  | 0, _ => []
  | f + 1, s => hunyuLoop (hunyuStringF f) (s.length + 1) s

/-- hunyu `String.__init__`. -/
def hunyuString (s : Str) : List Span :=
  hunyuStringF (s.length + 1) s

/-!  ## HTML rendering of spans

Modelled from funyu's as_html methods (hunyu's are identical except for a
slip in its Link rendering of scheme-carrying uris, which no claim
exercises).  Fuel bounds the nesting depth; the scanners never produce
nesting deeper than the scanned string's length.
-/

/-- Scheme recognition of urllib's urlparse: a non-empty run of scheme
characters starting with a letter, followed by a colon. -/
def isSchemeChar (c : Char) : Bool :=
  c.isAlphanum || c = '+' || c = '-' || c = '.'

/-- Does urlparse find a scheme in this uri? -/
def hasScheme (uri : Str) : Bool :=
  uri.contains ':' &&
    (match uri.takeWhile (fun c => c ≠ ':') with
     | [] => false
     | c :: rest => c.isAlpha && rest.all isSchemeChar)

/-- as_html of one span, fueled by nesting depth. -/
def spanHtmlF : Nat → Span → Str
  | 0, _ => []
  | f + 1, sp =>
    match sp with
    | .lit s => s
    | .keyword c => str "<strong>" ++ (c.map (spanHtmlF f)).flatten ++ str "</strong>"
    | .emphasis c => str "<em>" ++ (c.map (spanHtmlF f)).flatten ++ str "</em>"
    | .code t => str "<code>" ++ t ++ str "</code>"
    | .link c uri =>
      let inner := (c.map (spanHtmlF f)).flatten
      if hasScheme uri then
        str "<a href=\"" ++ uri ++ str "\" target=\"_blank\">" ++ inner ++ str "</a>"
      else
        str "<a href=\"" ++ uri ++ str "\">" ++ inner ++ str "</a>"
    | .imageLink alt uri =>
      if hasScheme uri then
        str "<a href=\"" ++ uri ++ str "\" target=\"_blank\"><img src=\"" ++ uri ++
          str "\" alt=\"" ++ alt ++ str "\"></a>"
      else
        str "<a href=\"" ++ uri ++ str "\"><img src=\"" ++ uri ++
          str "\" alt=\"" ++ alt ++ str "\"></a>"

/-- HTML of a scanned line under the funyu scanner. -/
def funyuStringHtml (s : Str) : Except Str Str :=
  (funyuString s).map (fun l => (l.map (spanHtmlF (s.length + 1))).flatten)

/-- HTML of a scanned line under the hunyu scanner. -/
def hunyuStringHtml (s : Str) : Str :=
  ((hunyuString s).map (spanHtmlF (s.length + 1))).flatten

/-!  ## Errors and the end-of-block signal -/

/-- Python exceptions escaping the parsing core: the markup syntax error
(funyu's variant carries an optional line-number annotation, hunyu's
never has one) and ValueError (the line-break precondition and malformed
post-script dates). -/
inductive PyErr where
  | synErr (lineNumber : Option Nat) (message : Str)
  | valueError (message : Str)
deriving DecidableEq

/-- Outcome of feeding one line into a block: a normal return, or the
EndOfBlock control signal carrying the optional unconsumed remainder. -/
inductive FeedSig where
  | done
  | endBlock (remain : Option Str)

/-!  ## Block tree -/

/-- Concrete block variants of the document tree.  Each carries its ended
flag; container blocks carry their nesting level and children, leaf
collectors carry their accumulated lines.  A paragraph's lines are stored
as their scanned span sequences (the source stores Line objects whose
inline scan runs at construction time). -/
inductive Blk where
  | paragraph (ended : Bool) (lines : List (List Span))
  | sectionB (level : Nat) (title : Str) (ended : Bool) (children : List Blk)
  | postscript (level : Nat) (date : Nat × Nat × Nat) (ended : Bool) (children : List Blk)
  | codeblock (ctype : Option Str) (ended : Bool) (lines : List Str)
  | embedded (ended : Bool) (lines : List Str)

/-- Is this block a Paragraph?  (the generic dispatch treats a trailing
paragraph differently from other trailing children). -/
def isParagraph : Blk → Bool
  | .paragraph .. => true
  | _ => false

/-- Replace the last child (Python mutates elements in place). -/
def withLast (cs : List Blk) (b : Blk) : List Blk := cs.dropLast ++ [b]

/-- CodeBlock's at-ingestion HTML escaping of ampersand, less-than and
greater-than, in the source's replacement order. -/
def escapeHtml (s : Str) : Str :=
  replaceAll (replaceAll (replaceAll s '&' (str "&amp;")) '<' (str "&lt;")) '>' (str "&gt;")

/-- Modelled from datetime.strptime with format %Y-%m-%d: four year
digits, dash, one or two month digits, dash, one or two day digits, with
calendar validation; None models the ValueError strptime raises. -/
def parseDate (s : Str) : Option (Nat × Nat × Nat) :=
  match splitOnChar '-' s with
  | [ys, ms, ds] =>
    if ys.all Char.isDigit && ys.length = 4 &&
        ms.all Char.isDigit && 1 ≤ ms.length && ms.length ≤ 2 &&
        ds.all Char.isDigit && 1 ≤ ds.length && ds.length ≤ 2 then
      let y := ys.foldl (fun a c => a * 10 + (c.toNat - 48)) (0 : Nat)
      let m := ms.foldl (fun a c => a * 10 + (c.toNat - 48)) (0 : Nat)
      let d := ds.foldl (fun a c => a * 10 + (c.toNat - 48)) (0 : Nat)
      let leap : Bool := y % 4 = 0 && (y % 100 ≠ 0 || y % 400 = 0)
      let dim :=
        if m = 2 then (if leap then 29 else 28)
        else if m = 4 || m = 6 || m = 9 || m = 11 then 30
        else 31
      if 1 ≤ m && m ≤ 12 && 1 ≤ d && d ≤ dim then some (y, m, d) else none
    else none
  | _ => none

/-- The tab character as a one-character string. -/
def tab : Str := ['\t']

/-!  ## The generic block dispatch (Block.feed)

`dispatchWith` is the body of the source's generic Block.feed, shared by
the document root, Section and PostScript.  It is parameterized by the
inline scanner `sc` (funyu's can fail, hunyu's cannot) and by the
function `fb` used to feed a line into an existing child block; the
recursive knot is tied in `feedBlk` below, which hands itself over with
one unit of fuel less when descending into a child container.
-/

/-- Block.feed steps four and five: an unconsumed non-blank line starts a
fresh Paragraph which is immediately fed the line (scanning it); an
unconsumed blank line is dropped. -/
def dispatchPara (sc : Str → Except Str (List Span))
    (cs : List Blk) (line : Str) : Except PyErr (List Blk) :=
  if strip line ≠ [] then
    match sc line with
    | .error m => .error (.synErr none m)
    | .ok spans => .ok (cs ++ [.paragraph false [spans]])
  else .ok cs

/-- Block.feed step three: with no trigger matched, the line is offered
to the last child once more; EndOfBlock (with the child's ended flag
already updated) and the empty-children IndexError are swallowed and the
paragraph fallback runs. -/
def dispatchAbsorb (sc : Str → Except Str (List Span))
    (fb : Blk → Str → Except PyErr (Blk × FeedSig))
    (cs : List Blk) (line : Str) : Except PyErr (List Blk) :=
  match cs.getLast? with
  | none => dispatchPara sc cs line
  | some last =>
    match fb last line with
    | .error e => .error e
    | .ok (last', .done) => .ok (withLast cs last')
    | .ok (last', .endBlock _) => dispatchPara sc (withLast cs last') line

/-- Block.feed step two: the new-block triggers in the source's priority
order (section, code block, post script, embedded html); the triggering
line itself only constructs the child.  A malformed post-script date is
strptime's ValueError. -/
def dispatchTriggers (sc : Str → Except Str (List Span))
    (fb : Blk → Str → Except PyErr (Blk × FeedSig))
    (level : Nat) (cs : List Blk) (line : Str) : Except PyErr (List Blk) :=
  if (str "-- ").isPrefixOf line then
    .ok (cs ++ [.sectionB (level + 1) (strip (line.drop 3)) false []])
  else if (str "```").isPrefixOf line then
    let t := strip (line.drop 4)
    .ok (cs ++ [.codeblock (if t = [] then none else some t) false []])
  else if (str "p.s. ").isPrefixOf line then
    match parseDate (strip (line.drop 5)) with
    | none => .error (.valueError (str "time data does not match format y-m-d"))
    | some d => .ok (cs ++ [.postscript (level + 1) d false []])
  else if strip line = str "(((" then
    .ok (cs ++ [.embedded false []])
  else dispatchAbsorb sc fb cs line

/-- Block.feed step one: a trailing non-Paragraph child is offered the
line first; a normal return or an EndOfBlock without remainder consumes
the line, an EndOfBlock with remainder falls through to the trigger
checks with the original line (and the child's updated ended flag kept). -/
def dispatchWith (sc : Str → Except Str (List Span))
    (fb : Blk → Str → Except PyErr (Blk × FeedSig))
    (level : Nat) (cs : List Blk) (line : Str) : Except PyErr (List Blk) :=
  match cs.getLast? with
  | some last =>
    if isParagraph last = false then
      match fb last line with
      | .error e => .error e
      | .ok (last', .done) => .ok (withLast cs last')
      | .ok (last', .endBlock none) => .ok (withLast cs last')
      | .ok (last', .endBlock (some _)) =>
        dispatchTriggers sc fb level (withLast cs last') line
    else dispatchTriggers sc fb level cs line
  | none => dispatchTriggers sc fb level cs line

/-- feed of one concrete block (Paragraph.feed, Section.feed,
PostScript.feed, CodeBlock.feed, EmbeddedHTML.feed), fueled by the
nesting depth of the descent into child containers. -/
def feedBlk (sc : Str → Except Str (List Span)) :
    Nat → Blk → Str → Except PyErr (Blk × FeedSig)
  | 0, _, _ => .error (.valueError (str "INSUFFICIENT FUEL"))
  | f + 1, blk, line =>
    match blk with
    | .paragraph ended lines =>
      if strip line = [] ∨ ended = true then
        .ok (.paragraph true lines, .endBlock (some line))
      else
        match sc line with
        | .error m => .error (.synErr none m)
        | .ok spans => .ok (.paragraph ended (lines ++ [spans]), .done)
    | .sectionB lvl title ended cs =>
      if (strip line ≠ [] ∧ tab.isPrefixOf line = false) ∨ ended = true then
        .ok (.sectionB lvl title true cs, .endBlock (some line))
      else
        match dispatchWith sc (feedBlk sc f) lvl cs (line.drop 1) with
        | .error e => .error e
        | .ok cs' => .ok (.sectionB lvl title ended cs', .done)
    | .postscript lvl d ended cs =>
      if (strip line ≠ [] ∧ tab.isPrefixOf line = false) ∨ ended = true then
        .ok (.postscript lvl d true cs, .endBlock (some line))
      else
        match dispatchWith sc (feedBlk sc f) lvl cs (line.drop 1) with
        | .error e => .error e
        | .ok cs' => .ok (.postscript lvl d ended cs', .done)
    | .codeblock t ended ls =>
      if ended then .ok (blk, .endBlock (some line))
      else if line = str "```" then .ok (.codeblock t true ls, .endBlock none)
      else if line ≠ [] ∧ tab.isPrefixOf line = false then
        .error (.synErr none (str "in code block, lines should be starts with tab character."))
      else .ok (.codeblock t ended (ls ++ [escapeHtml (line.drop 1)]), .done)
    | .embedded ended ls =>
      if ended then .ok (blk, .endBlock (some line))
      else if (str ")))").isPrefixOf line then .ok (.embedded true ls, .endBlock none)
      else if line ≠ [] ∧ tab.isPrefixOf line = false then
        .error (.synErr none (str "in embedded html, lines should be starts with tab character."))
      else .ok (.embedded ended (ls ++ [line.drop 1]), .done)

/-- Block.feed with a given descent fuel. -/
def blockDispatch (sc : Str → Except Str (List Span)) (f : Nat)
    (level : Nat) (cs : List Blk) (line : Str) : Except PyErr (List Blk) :=
  dispatchWith sc (feedBlk sc f) level cs line

/-!  ## Metadata block -/

/-- The metadata block: ended flag plus the underlying insertion-ordered
key-value mapping (a Python dict). -/
structure Meta where
  ended : Bool
  items : List (Str × Str)

/-- Python dict assignment: overwrite in place if the key exists,
append otherwise (insertion order preserved on overwrite). -/
def setItem : List (Str × Str) → Str → Str → List (Str × Str)
  | [], k, v => [(k, v)]
  | (k', v') :: rest, k, v =>
    if k' = k then (k, v) :: rest else (k', v') :: setItem rest k v

/-- MetaData.feed: once ended, EndOfBlock with the line as remainder;
a blank line ends the block; otherwise the line must contain a colon, is
split on colons, the trimmed text before the first colon is the key
(required non-empty) and the re-joined trimmed rest is the value. -/
def metaFeed (m : Meta) (line : Str) : Except PyErr (Meta × FeedSig) :=
  if m.ended then .ok (m, .endBlock (some line))
  else if strip line = [] then .ok ({ m with ended := true }, .endBlock none)
  else if line.contains ':' = false then
    .error (.synErr none (str "metadata block expects key-value separated by semicolon."))
  else if strip (splitOnChar ':' line).headI = [] then
    .error (.synErr none (str "key is required."))
  else
    .ok ({ m with items := (setItem m.items (strip (splitOnChar ':' line).headI)
      (strip (joinWith ':' (splitOnChar ':' line).tail))) }, .done)

/-- MetaData.as_funyu: one key-colon-space-value line per entry in
insertion order, newline-joined, with a trailing newline. -/
def metaAsFunyu (items : List (Str × Str)) : Str :=
  joinWith '\n' (items.map (fun kv => kv.1 ++ str ": " ++ kv.2)) ++ ['\n']

/-- Feed a list of lines into a metadata block, aborting at the first
error (EndOfBlock signals are internal and ignored by the caller). -/
def metaFeedList : Meta → List Str → Except PyErr Meta
  | m, [] => .ok m
  | m, l :: ls =>
    match metaFeed m l with
    | .ok (m', _) => metaFeedList m' ls
    | .error e => .error e

/-!  ## Document drivers -/

/-- funyu's Funyu document state: the 1-based line counter, the top
heading level (initial_level minus one), the metadata block and the
top-level children.  Block-tree mutations that the source performs on a
feed that then raises a syntax error are not modelled: every fatal error
aborts parsing of the whole document, so that state is never consulted. -/
structure FDoc where
  lineNumber : Nat
  level : Nat
  meta : Meta
  elements : List Blk

/-- A fresh Funyu document (initial_level one). -/
def funyuInit : FDoc := ⟨0, 0, ⟨false, []⟩, []⟩

/-- funyu's catch of FunyuSyntaxError in Funyu.feed: the error is stamped
with the current line counter and re-raised; ValueError passes through
untouched. -/
def annotate (n : Nat) : PyErr → PyErr
  | .synErr _ msg => .synErr (some n) msg
  | e => e

/-- Funyu.feed: the line counter is incremented first, then the
no-line-break precondition is checked, then the line is routed to the
metadata block while it is open and to the generic block dispatch once
the metadata has ended; any syntax error is annotated with the counter. -/
def funyuFeed (fuel : Nat) (d : FDoc) (line : Str) : FDoc × Option PyErr :=
  let d := { d with lineNumber := d.lineNumber + 1 }
  if line.contains '\n' then
    (d, some (.valueError (str "line argument can't include line break.")))
  else if d.meta.ended then
    match blockDispatch funyuString fuel d.level d.elements line with
    | .ok els => ({ d with elements := els }, none)
    | .error e => (d, some (annotate d.lineNumber e))
  else
    match metaFeed d.meta line with
    | .ok (m, _) => ({ d with meta := m }, none)
    | .error e => (d, some (annotate d.lineNumber e))

/-- Feeding a list of lines, stopping at the first raised error
(an exception aborts Funyu.parse's loop). -/
def funyuFeedList (fuel : Nat) : FDoc → List Str → FDoc × Option PyErr
  | d, [] => (d, none)
  | d, l :: ls =>
    match funyuFeed fuel d l with
    | (d', none) => funyuFeedList fuel d' ls
    | (d', some e) => (d', some e)

/-- Funyu.parse: split on line breaks and feed each line. -/
def funyuParse (fuel : Nat) (d : FDoc) (text : Str) : FDoc × Option PyErr :=
  funyuFeedList fuel d (splitLines text)

/-- hunyu's Hunyu document state: no line counter exists. -/
structure HDoc where
  level : Nat
  meta : Meta
  elements : List Blk

/-- A fresh Hunyu document (initial_level one). -/
def hunyuInit : HDoc := ⟨0, ⟨false, []⟩, []⟩

/-- hunyu's inline scanner wrapped as a never-failing scan. -/
def hunyuSc (s : Str) : Except Str (List Span) := .ok (hunyuString s)

/-- Hunyu.feed: the no-line-break precondition, then metadata routing or
generic dispatch; errors are re-raised with no annotation of any kind. -/
def hunyuFeed (fuel : Nat) (d : HDoc) (line : Str) : HDoc × Option PyErr :=
  if line.contains '\n' then
    (d, some (.valueError (str "line argument can't include line break.")))
  else if d.meta.ended then
    match blockDispatch hunyuSc fuel d.level d.elements line with
    | .ok els => ({ d with elements := els }, none)
    | .error e => (d, some e)
  else
    match metaFeed d.meta line with
    | .ok (m, _) => ({ d with meta := m }, none)
    | .error e => (d, some e)

/-- The line-break precondition's error message. -/
def breakMsg : Str := str "line argument can't include line break."

/-- A key-value pair that survives the metadata round trip: the key is a
non-empty trimmed string free of colons, the value a trimmed string, and
neither contains any line-boundary character of str.splitlines.  The
feeding driver rejects only embedded newlines, so pairs whose value holds
another boundary character (a bare carriage return, say) are reachable
but fall outside this shape. -/
def validPair (kv : Str × Str) : Prop :=
  strip kv.1 = kv.1 ∧ kv.1 ≠ [] ∧ ':' ∉ kv.1 ∧
    (∀ c ∈ kv.1, isLineBoundary c = false) ∧
    strip kv.2 = kv.2 ∧ (∀ c ∈ kv.2, isLineBoundary c = false)

instance (kv : Str × Str) : Decidable (validPair kv) := by
  unfold validPair; infer_instance

/-!  ## Markup-free strings

A string is inline-clean when it contains none of the eight characters
from which any inline delimiter or link pattern is built.  Both scanners
leave such text untouched.
-/

/-- No bracket, angle bracket, brace or parenthesis occurs in `t`. -/
def inlineClean (t : Str) : Prop :=
  ∀ c ∈ t, c ≠ '[' ∧ c ≠ ']' ∧ c ≠ '<' ∧ c ≠ '>' ∧
    c ≠ '\x7b' ∧ c ≠ '\x7d' ∧ c ≠ '(' ∧ c ≠ ')'

instance (t : Str) : Decidable (inlineClean t) := by
  unfold inlineClean; infer_instance

theorem inlineClean_tail {c : Char} {t : Str} (h : inlineClean (c :: t)) :
    inlineClean t := fun x hx => h x (List.mem_cons_of_mem c hx)

/-!  ## Behaviour of the matchers on strings missing a needed character -/

/-- A pattern whose first character does not occur in `s` is a prefix of
no suffix of `s`. -/
theorem not_prefixOf_drop_of_not_mem {c : Char} {pt s : Str} {i : Nat}
    (h : c ∉ s) : (c :: pt).isPrefixOf (s.drop i) = false := by
  cases hp : (c :: pt).isPrefixOf (s.drop i) with
  | false => rfl
  | true =>
    exfalso
    rw [List.isPrefixOf_iff_prefix] at hp
    rcases hp with ⟨tl, htl⟩
    exact h (List.drop_subset i s (htl ▸ List.mem_cons_self c (pt ++ tl)))

theorem lastMatchAux_none {c : Char} {pt s : Str} (h : c ∉ s) :
    ∀ n, lastMatchAux (c :: pt) s n = none := by
  intro n
  induction n with
  | zero =>
    have := @not_prefixOf_drop_of_not_mem c pt s 0 h
    simp only [List.drop_zero] at this
    simp [lastMatchAux, this]
  | succ n ih =>
    simp [lastMatchAux, @not_prefixOf_drop_of_not_mem c pt s (n + 1) h, ih]

theorem lastMatch_none {c : Char} {pt s : Str} (h : c ∉ s) :
    lastMatch (c :: pt) s = none := lastMatchAux_none h _

theorem linkBody_none {s : Str} (h : ')' ∉ s) : linkBody s = none := by
  have : lastMatch [')'] s = none := lastMatch_none h
  simp [linkBody, this]

theorem linkMatchAt_none {s : Str} (h : ')' ∉ s) : linkMatchAt s = none := by
  cases s with
  | nil => rfl
  | cons c rest =>
    have h1 : ')' ∉ rest := fun hx => h (List.mem_cons_of_mem c hx)
    have h2 : ')' ∉ rest.drop 4 := fun hx => h1 (List.drop_subset 4 rest hx)
    simp [linkMatchAt, linkBody_none h1, linkBody_none h2]

theorem findLink_none {s : Str} (h : ')' ∉ s) : findLink s = none := by
  induction s with
  | nil => rfl
  | cons c rest ih =>
    have h1 : ')' ∉ rest := fun hx => h (List.mem_cons_of_mem c hx)
    simp [findLink, linkMatchAt_none h, ih h1]

theorem splitLinks_self {s : Str} (h : ')' ∉ s) : splitLinks s = ([], s) := by
  simp [splitLinks, splitLinksF, findLink_none h]

theorem bracketAlt_none {opc s : Str} {c : Char} {pt : Str}
    (h : c ∉ s.drop 2) : bracketAlt opc (c :: pt) s = none := by
  have hm : lastMatch (c :: pt) (s.drop 2) = none := lastMatch_none h
  unfold bracketAlt
  cases opc.isPrefixOf s <;> simp [hm]

theorem hunyuMatchAt_none {s : Str} (h1 : ']' ∉ s) (h2 : '>' ∉ s)
    (h3 : '\x7d' ∉ s) (h4 : ')' ∉ s) : hunyuMatchAt s = none := by
  have d1 : ']' ∉ s.drop 2 := fun hx => h1 (List.drop_subset 2 s hx)
  have d2 : '>' ∉ s.drop 2 := fun hx => h2 (List.drop_subset 2 s hx)
  have d3 : '\x7d' ∉ s.drop 2 := fun hx => h3 (List.drop_subset 2 s hx)
  have e1 : str "]]" = ']' :: [']'] := rfl
  have e2 : str ">>" = '>' :: ['>'] := rfl
  have e3 : str "\x7d\x7d" = '\x7d' :: ['\x7d'] := rfl
  simp [hunyuMatchAt, e1, e2, e3, bracketAlt_none d1, bracketAlt_none d2,
    bracketAlt_none d3, linkMatchAt_none h4]

theorem findHMatch_none {s : Str} (h1 : ']' ∉ s) (h2 : '>' ∉ s)
    (h3 : '\x7d' ∉ s) (h4 : ')' ∉ s) : findHMatch s = none := by
  induction s with
  | nil => rfl
  | cons c rest ih =>
    have t1 : ']' ∉ rest := fun hx => h1 (List.mem_cons_of_mem c hx)
    have t2 : '>' ∉ rest := fun hx => h2 (List.mem_cons_of_mem c hx)
    have t3 : '\x7d' ∉ rest := fun hx => h3 (List.mem_cons_of_mem c hx)
    have t4 : ')' ∉ rest := fun hx => h4 (List.mem_cons_of_mem c hx)
    simp [findHMatch, hunyuMatchAt_none h1 h2 h3 h4, ih t1 t2 t3 t4]

theorem inlineClean_not_mem {t : Str} (h : inlineClean t) :
    '[' ∉ t ∧ ']' ∉ t ∧ '<' ∉ t ∧ '>' ∉ t ∧ '\x7b' ∉ t ∧ '\x7d' ∉ t ∧
      '(' ∉ t ∧ ')' ∉ t := by
  refine ⟨?_, ?_, ?_, ?_, ?_, ?_, ?_, ?_⟩ <;>
    · intro hx
      rcases h _ hx with ⟨a1, a2, a3, a4, a5, a6, a7, a8⟩
      simp_all

/-!  ## Both scanners leave markup-free text untouched -/

theorem hunyuString_noClose {s : Str} (h2 : ']' ∉ s) (h4 : '>' ∉ s)
    (h6 : '\x7d' ∉ s) (h8 : ')' ∉ s) : hunyuString s = [.lit s] := by
  simp [hunyuString, hunyuStringF, hunyuLoop, findHMatch_none h2 h4 h6 h8]

theorem hunyuString_clean {s : Str} (h : inlineClean s) :
    hunyuString s = [.lit s] := by
  rcases inlineClean_not_mem h with ⟨-, h2, -, h4, -, h6, -, h8⟩
  exact hunyuString_noClose h2 h4 h6 h8

theorem procStrLoop_clean (parse : Str → Except Str (List Span)) :
    ∀ (s pend : Str) (skip : Bool), inlineClean s →
      procStrLoop parse (s.length + 1) s pend skip =
        .ok (if pend.reverse ++ s = [] then [] else [.lit (pend.reverse ++ s)]) := by
  intro s
  induction s with
  | nil =>
    intro pend skip _
    cases pend <;> simp [procStrLoop]
  | cons c rest ih =>
    intro pend skip h
    rcases h c (List.mem_cons_self c rest) with ⟨a1, -, a3, -, a5, -, -, -⟩
    have e1 : str "[[" = '[' :: ['['] := rfl
    have e2 : str "<<" = '<' :: ['<'] := rfl
    have e3 : str "\x7b\x7b" = '\x7b' :: ['\x7b'] := rfl
    have hcond : ¬ (skip = false ∧ ((c :: rest).take 2 = str "[[" ∨
        (c :: rest).take 2 = str "<<" ∨ (c :: rest).take 2 = str "\x7b\x7b")) := by
      have ht : List.take 2 (c :: rest) = c :: rest.take 1 := rfl
      rintro ⟨-, h2 | h2 | h2⟩ <;>
        rw [ht] at h2 <;> simp only [e1, e2, e3, List.cons.injEq] at h2
      · exact a1 h2.1
      · exact a3 h2.1
      · exact a5 h2.1
    show procStrLoop parse (rest.length + 1 + 1) (c :: rest) pend skip = _
    rw [procStrLoop, if_neg hcond]
    rw [ih (c :: pend) false (inlineClean_tail h)]
    simp

theorem funyuStringF_clean {s : Str} (f : Nat) (h : inlineClean s) :
    funyuStringF (f + 1) s = .ok (if s = [] then [] else [.lit s]) := by
  rcases inlineClean_not_mem h with ⟨-, -, -, -, -, -, -, h8⟩
  rw [funyuStringF, splitLinks_self h8]
  show procStrLoop _ (s.length + 1) s [] false = _
  rw [procStrLoop_clean _ s [] false h]
  simp

theorem funyuString_clean {s : Str} (h : inlineClean s) :
    funyuString s = .ok (if s = [] then [] else [.lit s]) :=
  funyuStringF_clean s.length h

/-!  ## Behaviour of funyu's findClose on delimiter-free text -/

theorem findCloseAux_keyFree {oc cc : Char} {ot ct t : Str}
    (h : ∀ c ∈ t, c ≠ oc ∧ c ≠ cc) :
    ∀ (i : Nat) (lvl : Int), lvl ≠ -1 →
      findCloseAux (oc :: ot) (cc :: ct) t lvl i = none := by
  induction t with
  | nil => intro i lvl _; rfl
  | cons x rest ih =>
    intro i lvl hlvl
    rcases h x (List.mem_cons_self x rest) with ⟨hx1, hx2⟩
    have p1 : (oc :: ot).isPrefixOf (x :: rest) = false := by
      simp [List.isPrefixOf]
      intro he
      exact absurd he.symm hx1
    have p2 : (cc :: ct).isPrefixOf (x :: rest) = false := by
      simp [List.isPrefixOf]
      intro he
      exact absurd he.symm hx2
    rw [findCloseAux]
    simp only [p1, p2, Bool.false_eq_true, if_false, if_neg hlvl]
    exact ih (fun c hc => h c (List.mem_cons_of_mem x hc)) (i + 1) lvl hlvl

theorem findCloseAux_balanced {oc cc : Char} {ot ct t : Str}
    (h : ∀ c ∈ t, c ≠ oc ∧ c ≠ cc) (hocc : oc ≠ cc) :
    ∀ i : Nat, findCloseAux (oc :: ot) (cc :: ct) (t ++ cc :: ct) 0 i =
      some (t.length + i) := by
  induction t with
  | nil =>
    intro i
    have p1 : (oc :: ot).isPrefixOf (cc :: ct) = false := by
      simp [List.isPrefixOf]
      intro he
      exact absurd he hocc
    have p2 : (cc :: ct).isPrefixOf (cc :: ct) = true := by
      rw [List.isPrefixOf_iff_prefix]
    rw [List.nil_append, findCloseAux]
    simp [p1, p2]
  | cons x rest ih =>
    intro i
    rcases h x (List.mem_cons_self x rest) with ⟨hx1, hx2⟩
    have p1 : (oc :: ot).isPrefixOf (x :: (rest ++ cc :: ct)) = false := by
      simp [List.isPrefixOf]
      intro he
      exact absurd he.symm hx1
    have p2 : (cc :: ct).isPrefixOf (x :: (rest ++ cc :: ct)) = false := by
      simp [List.isPrefixOf]
      intro he
      exact absurd he.symm hx2
    rw [List.cons_append, findCloseAux]
    simp only [p1, p2, Bool.false_eq_true, if_false]
    rw [if_neg (by decide : (0 : Int) ≠ -1)]
    rw [ih (fun c hc => h c (List.mem_cons_of_mem x hc)) (i + 1)]
    congr 1
    simp [List.length_cons]
    omega

/-!  ## funyu scanning of one opening delimiter plus markup-free text -/

theorem funyuString_eq_procStr {s : Str} (h8 : ')' ∉ s) :
    funyuString s =
      procStrLoop (funyuStringF s.length) (s.length + 1) s [] false := by
  rw [funyuString, funyuStringF, splitLinks_self h8]
  rfl

theorem notMem_cons2 {c a b : Char} {t : Str} (hca : c ≠ a) (hcb : c ≠ b)
    (ht : c ∉ t) : c ∉ a :: b :: t := by
  simp only [List.mem_cons]
  push_neg
  exact ⟨hca, hcb, ht⟩

theorem funyuString_open_kw_err {t : Str} (h : inlineClean t) :
    funyuString (str "[[" ++ t) = .error closeMsg := by
  rcases inlineClean_not_mem h with ⟨m1, m2, -, -, -, -, -, m8⟩
  have e : str "[[" ++ t = '[' :: '[' :: t := rfl
  rw [e]
  have h8 : ')' ∉ '[' :: '[' :: t := notMem_cons2 (by decide) (by decide) m8
  rw [funyuString_eq_procStr h8]
  show procStrLoop _ (t.length + 2 + 1) _ _ _ = _
  rw [procStrLoop]
  have hk : ('[' :: '[' :: t).take 2 = str "[[" := rfl
  rw [hk, if_pos ⟨rfl, Or.inl rfl⟩, if_pos rfl]
  have hfc : findClose (('[' :: '[' :: t).drop 2) (str "[[") (str "]]") = none := by
    show findCloseAux ('[' :: ['[']) (']' :: [']']) t 0 0 = none
    exact findCloseAux_keyFree (fun c hc => ⟨(h c hc).1, (h c hc).2.1⟩) 0 0 (by decide)
  rw [hfc]

theorem funyuString_open_em_err {t : Str} (h : inlineClean t) :
    funyuString (str "<<" ++ t) = .error closeMsg := by
  rcases inlineClean_not_mem h with ⟨-, -, -, -, -, -, -, m8⟩
  have e : str "<<" ++ t = '<' :: '<' :: t := rfl
  rw [e]
  have h8 : ')' ∉ '<' :: '<' :: t := notMem_cons2 (by decide) (by decide) m8
  rw [funyuString_eq_procStr h8]
  show procStrLoop _ (t.length + 2 + 1) _ _ _ = _
  rw [procStrLoop]
  have hk : ('<' :: '<' :: t).take 2 = str "<<" := rfl
  rw [hk, if_pos ⟨rfl, Or.inr (Or.inl rfl)⟩]
  rw [if_neg (by decide : ¬ (str "<<" = str "[[")), if_pos rfl]
  have hfc : findClose (('<' :: '<' :: t).drop 2) (str "<<") (str ">>") = none := by
    show findCloseAux ('<' :: ['<']) ('>' :: ['>']) t 0 0 = none
    exact findCloseAux_keyFree
      (fun c hc => ⟨(h c hc).2.2.1, (h c hc).2.2.2.1⟩) 0 0 (by decide)
  rw [hfc]

theorem funyuString_open_cd_err {t : Str} (h : inlineClean t) :
    funyuString (str "\x7b\x7b" ++ t) = .error closeMsg := by
  rcases inlineClean_not_mem h with ⟨-, -, -, -, -, -, -, m8⟩
  have e : str "\x7b\x7b" ++ t = '\x7b' :: '\x7b' :: t := rfl
  rw [e]
  have h8 : ')' ∉ '\x7b' :: '\x7b' :: t := notMem_cons2 (by decide) (by decide) m8
  rw [funyuString_eq_procStr h8]
  show procStrLoop _ (t.length + 2 + 1) _ _ _ = _
  rw [procStrLoop]
  have hk : ('\x7b' :: '\x7b' :: t).take 2 = str "\x7b\x7b" := rfl
  rw [hk, if_pos ⟨rfl, Or.inr (Or.inr rfl)⟩]
  rw [if_neg (by decide : ¬ (str "\x7b\x7b" = str "[[")),
    if_neg (by decide : ¬ (str "\x7b\x7b" = str "<<"))]
  have hfc : findClose (('\x7b' :: '\x7b' :: t).drop 2) (str "\x7b\x7b") (str "\x7d\x7d") =
      none := by
    show findCloseAux ('\x7b' :: ['\x7b']) ('\x7d' :: ['\x7d']) t 0 0 = none
    exact findCloseAux_keyFree
      (fun c hc => ⟨(h c hc).2.2.2.2.1, (h c hc).2.2.2.2.2.1⟩) 0 0 (by decide)
  rw [hfc]

theorem funyuString_open_close {t : Str} (h : inlineClean t) :
    funyuString (str "[[" ++ t ++ str "]]") =
      .ok [.lit [], .keyword (if t = [] then [] else [.lit t])] := by
  rcases inlineClean_not_mem h with ⟨-, m2, -, -, -, -, -, m8⟩
  have e : str "[[" ++ t ++ str "]]" = '[' :: '[' :: (t ++ str "]]") := rfl
  rw [e]
  have h8 : ')' ∉ '[' :: '[' :: (t ++ str "]]") := by
    refine notMem_cons2 (by decide) (by decide) ?_
    simp only [List.mem_append]
    push_neg
    exact ⟨m8, by decide⟩
  rw [funyuString_eq_procStr h8]
  show procStrLoop _ ((t ++ str "]]").length + 2 + 1) _ _ _ = _
  rw [procStrLoop]
  have hk : ('[' :: '[' :: (t ++ str "]]")).take 2 = str "[[" := rfl
  rw [hk, if_pos ⟨rfl, Or.inl rfl⟩, if_pos rfl]
  have hfc : findClose (('[' :: '[' :: (t ++ str "]]")).drop 2) (str "[[") (str "]]") =
      some t.length := by
    show findCloseAux ('[' :: ['[']) (']' :: [']']) (t ++ ']' :: [']']) 0 0 = some t.length
    rw [findCloseAux_balanced (fun c hc => ⟨(h c hc).1, (h c hc).2.1⟩) (by decide) 0]
    rfl
  have hc : (('[' :: '[' :: (t ++ str "]]")).drop 2).take t.length = t := by
    show (t ++ str "]]").take t.length = t
    exact List.take_left t (str "]]")
  have hlen : ('[' :: '[' :: (t ++ str "]]")).length = t.length + 4 := by
    show (t ++ str "]]").length + 1 + 1 = t.length + 4
    rw [List.length_append]
    rfl
  have hparse : funyuStringF ('[' :: '[' :: (t ++ str "]]")).length t =
      .ok (if t = [] then [] else [.lit t]) := by
    rw [hlen]
    exact funyuStringF_clean (t.length + 3) h
  have hdrop : (('[' :: '[' :: (t ++ str "]]")).drop 2).drop (t.length + 2) = [] := by
    show (t ++ str "]]").drop (t.length + 2) = []
    refine List.drop_eq_nil_of_le ?_
    rw [List.length_append]
    exact Nat.le_refl _
  have hrest : procStrLoop (funyuStringF ('[' :: '[' :: (t ++ str "]]")).length)
      ((t ++ str "]]").length + 2) [] [] true = .ok [] := by
    show procStrLoop _ ((t ++ str "]]").length + 1 + 1) [] [] true = _
    rw [procStrLoop]
    rfl
  simp only [hfc, hc, hparse, Except.map, hdrop, hrest, List.reverse_nil]

theorem funyuString_open_close_em {t : Str} (h : inlineClean t) :
    funyuString (str "<<" ++ t ++ str ">>") =
      .ok [.lit [], .emphasis (if t = [] then [] else [.lit t])] := by
  rcases inlineClean_not_mem h with ⟨-, -, -, m4, -, -, -, m8⟩
  have e : str "<<" ++ t ++ str ">>" = '<' :: '<' :: (t ++ str ">>") := rfl
  rw [e]
  have h8 : ')' ∉ '<' :: '<' :: (t ++ str ">>") := by
    refine notMem_cons2 (by decide) (by decide) ?_
    simp only [List.mem_append]
    push_neg
    exact ⟨m8, by decide⟩
  rw [funyuString_eq_procStr h8]
  show procStrLoop _ ((t ++ str ">>").length + 2 + 1) _ _ _ = _
  rw [procStrLoop]
  have hk : ('<' :: '<' :: (t ++ str ">>")).take 2 = str "<<" := rfl
  rw [hk, if_pos ⟨rfl, Or.inr (Or.inl rfl)⟩]
  rw [if_neg (by decide : ¬ (str "<<" = str "[[")), if_pos rfl]
  have hfc : findClose (('<' :: '<' :: (t ++ str ">>")).drop 2) (str "<<") (str ">>") =
      some t.length := by
    show findCloseAux ('<' :: ['<']) ('>' :: ['>']) (t ++ '>' :: ['>']) 0 0 = some t.length
    rw [findCloseAux_balanced (fun c hc => ⟨(h c hc).2.2.1, (h c hc).2.2.2.1⟩) (by decide) 0]
    rfl
  have hc : (('<' :: '<' :: (t ++ str ">>")).drop 2).take t.length = t := by
    show (t ++ str ">>").take t.length = t
    exact List.take_left t (str ">>")
  have hlen : ('<' :: '<' :: (t ++ str ">>")).length = t.length + 4 := by
    show (t ++ str ">>").length + 1 + 1 = t.length + 4
    rw [List.length_append]
    rfl
  have hparse : funyuStringF ('<' :: '<' :: (t ++ str ">>")).length t =
      .ok (if t = [] then [] else [.lit t]) := by
    rw [hlen]
    exact funyuStringF_clean (t.length + 3) h
  have hdrop : (('<' :: '<' :: (t ++ str ">>")).drop 2).drop (t.length + 2) = [] := by
    show (t ++ str ">>").drop (t.length + 2) = []
    refine List.drop_eq_nil_of_le ?_
    rw [List.length_append]
    exact Nat.le_refl _
  have hrest : procStrLoop (funyuStringF ('<' :: '<' :: (t ++ str ">>")).length)
      ((t ++ str ">>").length + 2) [] [] true = .ok [] := by
    show procStrLoop _ ((t ++ str ">>").length + 1 + 1) [] [] true = _
    rw [procStrLoop]
    rfl
  simp only [hfc, hc, hparse, Except.map, hdrop, hrest, List.reverse_nil]

theorem funyuString_open_close_cd {t : Str} (h : inlineClean t) :
    funyuString (str "\x7b\x7b" ++ t ++ str "\x7d\x7d") = .ok [.lit [], .code t] := by
  rcases inlineClean_not_mem h with ⟨-, -, -, -, -, m6, -, m8⟩
  have e : str "\x7b\x7b" ++ t ++ str "\x7d\x7d" =
      '\x7b' :: '\x7b' :: (t ++ str "\x7d\x7d") := rfl
  rw [e]
  have h8 : ')' ∉ '\x7b' :: '\x7b' :: (t ++ str "\x7d\x7d") := by
    refine notMem_cons2 (by decide) (by decide) ?_
    simp only [List.mem_append]
    push_neg
    exact ⟨m8, by decide⟩
  rw [funyuString_eq_procStr h8]
  show procStrLoop _ ((t ++ str "\x7d\x7d").length + 2 + 1) _ _ _ = _
  rw [procStrLoop]
  have hk : ('\x7b' :: '\x7b' :: (t ++ str "\x7d\x7d")).take 2 = str "\x7b\x7b" := rfl
  rw [hk, if_pos ⟨rfl, Or.inr (Or.inr rfl)⟩]
  rw [if_neg (by decide : ¬ (str "\x7b\x7b" = str "[[")),
    if_neg (by decide : ¬ (str "\x7b\x7b" = str "<<"))]
  have hfc : findClose (('\x7b' :: '\x7b' :: (t ++ str "\x7d\x7d")).drop 2)
      (str "\x7b\x7b") (str "\x7d\x7d") = some t.length := by
    show findCloseAux ('\x7b' :: ['\x7b']) ('\x7d' :: ['\x7d']) (t ++ '\x7d' :: ['\x7d'])
      0 0 = some t.length
    rw [findCloseAux_balanced
      (fun c hc => ⟨(h c hc).2.2.2.2.1, (h c hc).2.2.2.2.2.1⟩) (by decide) 0]
    rfl
  have hc : (('\x7b' :: '\x7b' :: (t ++ str "\x7d\x7d")).drop 2).take t.length = t := by
    show (t ++ str "\x7d\x7d").take t.length = t
    exact List.take_left t (str "\x7d\x7d")
  have hdrop : (('\x7b' :: '\x7b' :: (t ++ str "\x7d\x7d")).drop 2).drop (t.length + 2) =
      [] := by
    show (t ++ str "\x7d\x7d").drop (t.length + 2) = []
    refine List.drop_eq_nil_of_le ?_
    rw [List.length_append]
    exact Nat.le_refl _
  have hrest : procStrLoop (funyuStringF ('\x7b' :: '\x7b' :: (t ++ str "\x7d\x7d")).length)
      ((t ++ str "\x7d\x7d").length + 2) [] [] true = .ok [] := by
    show procStrLoop _ ((t ++ str "\x7d\x7d").length + 1 + 1) [] [] true = _
    rw [procStrLoop]
    rfl
  simp only [hfc, hc, hdrop, hrest, List.reverse_nil]

/-!  ## Claim C1: equivalence of the two inline scanning strategies -/

/-- C1 counterexample: on the valid line of two adjacent emphasis spans,
funyu's depth-tracked pass yields two spans while hunyu's greedy
alternation pass yields a single span reaching the last close delimiter,
so the two variants render different HTML and the claimed equivalence of
the two scanning strategies fails. -/
theorem C1_counterexample :
    funyuStringHtml (str "<<a>> <<b>>") = .ok (str "<em>a</em> <em>b</em>") ∧
    hunyuStringHtml (str "<<a>> <<b>>") = str "<em>a>> <<b</em>" ∧
    (str "<em>a</em> <em>b</em>" : Str) ≠ str "<em>a>> <<b</em>" :=
  ⟨rfl, rfl, by decide⟩

/-- C1 (amended): the two scanning strategies agree — identical HTML
rendering of the scanned line — on every line containing no
markup-significant character, and on representative single-occurrence
lines (one keyword plus one emphasis separated by plain text, and the
depth-nested emphasis line), but they are not equivalent on all valid
lines. -/
theorem C1_theorem :
    (∀ s : Str, inlineClean s → funyuStringHtml s = .ok (hunyuStringHtml s)) ∧
    funyuStringHtml (str "this is [[keyword]] text, and <<emphasis>> text.") =
      .ok (hunyuStringHtml (str "this is [[keyword]] text, and <<emphasis>> text.")) ∧
    funyuStringHtml (str "<<a<<b>>c>>") = .ok (hunyuStringHtml (str "<<a<<b>>c>>")) := by
  refine ⟨?_, rfl, rfl⟩
  intro s h
  rw [funyuStringHtml, funyuString_clean h, hunyuStringHtml, hunyuString_clean h]
  by_cases hs : s = []
  · subst hs; rfl
  · rw [if_neg hs]
    show Except.ok _ = _
    simp [spanHtmlF]

/-- C1 witness: the strategy-agreement theorem applied to one concrete
markup-free line. -/
theorem C1_witness :
    inlineClean (str "plain text.") ∧
    funyuStringHtml (str "plain text.") = .ok (hunyuStringHtml (str "plain text.")) :=
  ⟨by decide, C1_theorem.1 (str "plain text.") (by decide)⟩

/-!  ## Claim C2: depth-aware close matching on nested same-kind brackets -/

/-- C2: scanning the nested-emphasis line produces exactly one emphasis
span whose inner content is the text between the outer delimiters,
itself further inline-parsed, in both variants (the only other elements
are literal runs, empty ones included), and both render the same nested
HTML. -/
theorem C2_theorem :
    funyuString (str "<<a<<b>>c>>") =
      .ok [.lit [], .emphasis [.lit (str "a"), .emphasis [.lit (str "b")], .lit (str "c")]] ∧
    hunyuString (str "<<a<<b>>c>>") =
      [.lit [], .emphasis [.lit (str "a"), .emphasis [.lit (str "b")], .lit (str "c")],
        .lit []] ∧
    funyuStringHtml (str "<<a<<b>>c>>") = .ok (str "<em>a<em>b</em>c</em>") ∧
    hunyuStringHtml (str "<<a<<b>>c>>") = str "<em>a<em>b</em>c</em>" :=
  ⟨rfl, rfl, rfl, rfl⟩

/-!  ## Claim C3: unmatched opening delimiters -/

/-- C3 counterexample: the claim fails in three independent ways.  The
hunyu variant's scanner never raises the close-bracket error: on the
unmatched line it returns the whole line as literal text (funyu's scan of
the same line shows the opening delimiter is indeed unmatched).  The
funyu variant misses an unmatched opener standing immediately after a
closed span, because the scan index skips one position there.  And the
claim's converse clause fails too: on the fully matched line
`<<a [x](u)>>` funyu raises the close-bracket error, because the global
link pass extracts the link first and the remaining gap `<<a ` carries
an opener with no close (hunyu scans the same line into an emphasis span
holding a link). -/
theorem C3_counterexample :
    funyuString (str "[[opend") = .error closeMsg ∧
    hunyuString (str "[[opend") = [.lit (str "[[opend")] ∧
    funyuString (str "[[a]][[b") =
      .ok [.lit [], .keyword [.lit (str "a")], .lit (str "[[b")] ∧
    funyuString (str "<<a [x](u)>>") = .error closeMsg ∧
    hunyuString (str "<<a [x](u)>>") =
      [.lit [], .emphasis [.lit (str "a "), .link [.lit (str "x")] (str "u"),
        .lit []], .lit []] :=
  ⟨rfl, rfl, rfl, rfl, rfl⟩

/-- C3 (amended): in the funyu variant, every line consisting of an
opening delimiter followed by markup-free text raises the fatal error
about a required close bracket, for each of the three delimiter kinds,
and appending the matching close delimiter instead yields a successful
scan of a single span, again for each kind; the hunyu variant raises no
error on any of the three unmatched openers and treats the line as
literal text. -/
theorem C3_theorem : ∀ t : Str, inlineClean t →
    funyuString (str "[[" ++ t) = .error closeMsg ∧
    funyuString (str "<<" ++ t) = .error closeMsg ∧
    funyuString (str "\x7b\x7b" ++ t) = .error closeMsg ∧
    funyuString (str "[[" ++ t ++ str "]]") =
      .ok [.lit [], .keyword (if t = [] then [] else [.lit t])] ∧
    funyuString (str "<<" ++ t ++ str ">>") =
      .ok [.lit [], .emphasis (if t = [] then [] else [.lit t])] ∧
    funyuString (str "\x7b\x7b" ++ t ++ str "\x7d\x7d") = .ok [.lit [], .code t] ∧
    hunyuString (str "[[" ++ t) = [.lit (str "[[" ++ t)] ∧
    hunyuString (str "<<" ++ t) = [.lit (str "<<" ++ t)] ∧
    hunyuString (str "\x7b\x7b" ++ t) = [.lit (str "\x7b\x7b" ++ t)] := by
  intro t h
  rcases inlineClean_not_mem h with ⟨-, m2, -, m4, -, m6, -, m8⟩
  refine ⟨funyuString_open_kw_err h, funyuString_open_em_err h,
    funyuString_open_cd_err h, funyuString_open_close h,
    funyuString_open_close_em h, funyuString_open_close_cd h, ?_, ?_, ?_⟩
  · have e : str "[[" ++ t = '[' :: '[' :: t := rfl
    rw [e]
    exact hunyuString_noClose
      (notMem_cons2 (by decide) (by decide) m2)
      (notMem_cons2 (by decide) (by decide) m4)
      (notMem_cons2 (by decide) (by decide) m6)
      (notMem_cons2 (by decide) (by decide) m8)
  · have e : str "<<" ++ t = '<' :: '<' :: t := rfl
    rw [e]
    exact hunyuString_noClose
      (notMem_cons2 (by decide) (by decide) m2)
      (notMem_cons2 (by decide) (by decide) m4)
      (notMem_cons2 (by decide) (by decide) m6)
      (notMem_cons2 (by decide) (by decide) m8)
  · have e : str "\x7b\x7b" ++ t = '\x7b' :: '\x7b' :: t := rfl
    rw [e]
    exact hunyuString_noClose
      (notMem_cons2 (by decide) (by decide) m2)
      (notMem_cons2 (by decide) (by decide) m4)
      (notMem_cons2 (by decide) (by decide) m6)
      (notMem_cons2 (by decide) (by decide) m8)

/-- C3 witness: the amended theorem applied to one concrete piece of
markup-free text, for an unmatched opener and for a closed emphasis. -/
theorem C3_witness :
    inlineClean (str "x") ∧
    funyuString (str "[[" ++ str "x") = .error closeMsg ∧
    funyuString (str "<<" ++ str "x" ++ str ">>") =
      .ok [.lit [], .emphasis (if str "x" = [] then [] else [.lit (str "x")])] ∧
    hunyuString (str "\x7b\x7b" ++ str "x") = [.lit (str "\x7b\x7b" ++ str "x")] :=
  ⟨by decide, (C3_theorem (str "x") (by decide)).1,
    (C3_theorem (str "x") (by decide)).2.2.2.2.1,
    (C3_theorem (str "x") (by decide)).2.2.2.2.2.2.2.2⟩

/-!  ## Blank lines and trigger prefixes -/

theorem not_prefixOf_of_not_mem {c : Char} {pt s : Str} (h : c ∉ s) :
    (c :: pt).isPrefixOf s = false := by
  have := @not_prefixOf_drop_of_not_mem c pt s 0 h
  rwa [List.drop_zero] at this

theorem cons_isPrefixOf_cons_false {a b : Char} {pt s : Str} (h : a ≠ b) :
    (a :: pt).isPrefixOf (b :: s) = false := by
  cases hp : (a :: pt).isPrefixOf (b :: s) with
  | false => rfl
  | true =>
    rw [List.isPrefixOf_iff_prefix, List.cons_prefix_cons] at hp
    exact absurd hp.1 h

theorem dropWhile_head_false {p : Char → Bool} {b : Str} {c : Char} {rest : Str}
    (h : b.dropWhile p = c :: rest) : p c = false := by
  induction b with
  | nil => simp at h
  | cons x xs ih =>
    by_cases hx : p x
    · rw [List.dropWhile_cons_of_pos hx] at h
      exact ih h
    · rw [List.dropWhile_cons_of_neg hx] at h
      cases h
      exact Bool.of_not_eq_true hx

theorem strip_nil_all_space {b : Str} (h : strip b = []) :
    ∀ c ∈ b, isPySpace c = true := by
  cases hl : b.dropWhile isPySpace with
  | nil => exact List.dropWhile_eq_nil_iff.mp hl
  | cons d rest =>
    exfalso
    have hd : isPySpace d = false := dropWhile_head_false hl
    rw [strip, hl, List.reverse_eq_nil_iff] at h
    have hall := List.dropWhile_eq_nil_iff.mp h
    have : isPySpace d = true := hall d (by simp)
    simp_all

/-!  ## Claim C7: paragraph ending and blank-line absorption -/

/-- C7: feeding a blank line into a block whose last child is an open
paragraph ends that paragraph and consumes the blank line entirely — the
children list is otherwise unchanged, so nothing is re-dispatched — while
feeding a non-blank line into an already ended paragraph raises the
end-of-block signal carrying that very line as unconsumed remainder for
the parent to re-route. -/
theorem C7_theorem :
    (∀ (sc : Str → Except Str (List Span)) (f level : Nat) (cs : List Blk)
       (ls : List (List Span)) (b : Str), strip b = [] →
       blockDispatch sc (f + 1) level (cs ++ [.paragraph false ls]) b =
         .ok (cs ++ [.paragraph true ls])) ∧
    (∀ (sc : Str → Except Str (List Span)) (f : Nat)
       (ls : List (List Span)) (x : Str), strip x ≠ [] →
       feedBlk sc (f + 1) (.paragraph true ls) x =
         .ok (.paragraph true ls, .endBlock (some x))) := by
  constructor
  · intro sc f level cs ls b hb
    have hall := strip_nil_all_space hb
    have t1 : (str "-- ").isPrefixOf b = false := by
      have e : str "-- " = '-' :: ('-' :: [' ']) := rfl
      rw [e]
      exact not_prefixOf_of_not_mem (fun hm => absurd (hall '-' hm) (by decide))
    have t2 : (str "```").isPrefixOf b = false := by
      have e : str "```" = '`' :: ('`' :: ['`']) := rfl
      rw [e]
      exact not_prefixOf_of_not_mem (fun hm => absurd (hall '`' hm) (by decide))
    have t3 : (str "p.s. ").isPrefixOf b = false := by
      have e : str "p.s. " = 'p' :: ('.' :: ('s' :: ('.' :: [' ']))) := rfl
      rw [e]
      exact not_prefixOf_of_not_mem (fun hm => absurd (hall 'p' hm) (by decide))
    have t4 : ¬ (strip b = str "(((") := by rw [hb]; decide
    rw [blockDispatch, dispatchWith, List.getLast?_concat]
    show dispatchTriggers _ _ _ _ _ = _
    rw [dispatchTriggers]
    simp only [t1, t2, t3, t4, Bool.false_eq_true, if_false, if_neg t4]
    have hf : feedBlk sc (f + 1) (Blk.paragraph false ls) b =
        .ok (.paragraph true ls, .endBlock (some b)) := by
      rw [feedBlk, if_pos (Or.inl hb)]
    rw [dispatchAbsorb, List.getLast?_concat]
    simp only [hf]
    rw [dispatchPara, if_neg (fun hx => hx hb), withLast, List.dropLast_concat]
  · intro sc f ls x _
    rw [feedBlk, if_pos (Or.inr rfl)]

/-- C7 witness: the theorem applied to a concrete open paragraph fed a
blank line and a concrete ended paragraph fed a non-blank line. -/
theorem C7_witness :
    blockDispatch funyuString 1 0 ([] ++ [.paragraph false []]) (str " ") =
      .ok ([] ++ [.paragraph true []]) ∧
    feedBlk funyuString 1 (.paragraph true []) (str "after end") =
      .ok (.paragraph true [], .endBlock (some (str "after end"))) :=
  ⟨C7_theorem.1 funyuString 0 0 [] [] (str " ") (by decide),
    C7_theorem.2 funyuString 0 [] (str "after end") (by decide)⟩

/-!  ## Claim C8: the CodeBlock trigger and its type extraction -/

/-- C8: every line starting with three backticks triggers a fresh
CodeBlock appended to the children; its optional type is the trimmed
remainder after the four-character prefix of three backticks and a space
(none when that remainder is empty).  Stated for the trigger dispatch
with arbitrary children and for the full block dispatch with no children;
the final conjunct instantiates the triggering line as the four-character
prefix followed by arbitrary text, the trimmed text following the prefix
being exactly the extracted type. -/
theorem C8_theorem :
    (∀ (sc : Str → Except Str (List Span))
       (fb : Blk → Str → Except PyErr (Blk × FeedSig))
       (level : Nat) (cs : List Blk) (line : Str),
       (str "```").isPrefixOf line = true →
       dispatchTriggers sc fb level cs line =
         .ok (cs ++ [.codeblock
           (if strip (line.drop 4) = [] then none else some (strip (line.drop 4)))
           false []])) ∧
    (∀ (sc : Str → Except Str (List Span)) (f level : Nat) (line : Str),
       (str "```").isPrefixOf line = true →
       blockDispatch sc f level [] line =
         .ok [.codeblock
           (if strip (line.drop 4) = [] then none else some (strip (line.drop 4)))
           false []]) ∧
    (∀ (sc : Str → Except Str (List Span))
       (fb : Blk → Str → Except PyErr (Blk × FeedSig))
       (level : Nat) (cs : List Blk) (r : Str),
       dispatchTriggers sc fb level cs (str "``` " ++ r) =
         .ok (cs ++ [.codeblock
           (if strip r = [] then none else some (strip r)) false []])) := by
  have key : ∀ (sc : Str → Except Str (List Span))
      (fb : Blk → Str → Except PyErr (Blk × FeedSig))
      (level : Nat) (cs : List Blk) (line : Str),
      (str "```").isPrefixOf line = true →
      dispatchTriggers sc fb level cs line =
        .ok (cs ++ [.codeblock
          (if strip (line.drop 4) = [] then none else some (strip (line.drop 4)))
          false []]) := by
    intro sc fb level cs line h
    rw [List.isPrefixOf_iff_prefix] at h
    rcases h with ⟨r, hr⟩
    have e : str "```" ++ r = '`' :: '`' :: '`' :: r := rfl
    rw [← hr, e]
    have t1 : (str "-- ").isPrefixOf ('`' :: '`' :: '`' :: r) = false := by
      have e1 : str "-- " = '-' :: ('-' :: [' ']) := rfl
      rw [e1]
      exact cons_isPrefixOf_cons_false (by decide)
    have t2 : (str "```").isPrefixOf ('`' :: '`' :: '`' :: r) = true := by
      rw [List.isPrefixOf_iff_prefix]
      exact ⟨r, rfl⟩
    rw [dispatchTriggers]
    simp only [t1, t2, Bool.false_eq_true, if_false, if_true]
  refine ⟨key, ?_, ?_⟩
  · intro sc f level line h
    rw [blockDispatch, dispatchWith]
    show dispatchTriggers sc (feedBlk sc f) level [] line = _
    exact key sc (feedBlk sc f) level [] line h
  · intro sc fb level cs r
    have h : (str "```").isPrefixOf (str "``` " ++ r) = true := by
      rw [List.isPrefixOf_iff_prefix]
      exact ⟨' ' :: r, rfl⟩
    have hdrop : (str "``` " ++ r).drop 4 = r := rfl
    rw [key sc fb level cs (str "``` " ++ r) h, hdrop]

/-- C8 witness: the trigger theorem applied to two concrete lines, one
with a type name and one whose remainder is empty. -/
theorem C8_witness :
    (str "```").isPrefixOf (str "``` html") = true ∧
    dispatchTriggers funyuString (feedBlk funyuString 1) 0 [] (str "``` html") =
      .ok [.codeblock (some (str "html")) false []] ∧
    blockDispatch funyuString 1 0 [] (str "```") =
      .ok [.codeblock none false []] := by
  refine ⟨by decide, ?_, ?_⟩
  · have := C8_theorem.1 funyuString (feedBlk funyuString 1) 0 [] (str "``` html")
      (by decide)
    rw [this]
    rfl
  · have := C8_theorem.2.1 funyuString 1 0 (str "```") (by decide)
    rw [this]
    rfl

/-!  ## Claims C9, C10 and C5: the document drivers -/

theorem funyuFeed_lineNumber (fuel : Nat) (d : FDoc) (line : Str) :
    (funyuFeed fuel d line).1.lineNumber = d.lineNumber + 1 := by
  rw [funyuFeed]
  split
  · rfl
  split
  · split <;> rfl
  · split <;> rfl

/-- C9: a line containing an internal line break is rejected with the
ValueError precondition violation by both drivers, in every document
state, before any parsing attempt: the funyu driver's metadata and block
tree are untouched (only its line counter moves), and the hunyu driver's
state is returned entirely unchanged. -/
theorem C9_theorem :
    (∀ (fuel : Nat) (d : FDoc) (line : Str), line.contains '\n' = true →
       (funyuFeed fuel d line).1.meta = d.meta ∧
       (funyuFeed fuel d line).1.elements = d.elements ∧
       (funyuFeed fuel d line).2 = some (.valueError breakMsg)) ∧
    (∀ (fuel : Nat) (d : HDoc) (line : Str), line.contains '\n' = true →
       hunyuFeed fuel d line = (d, some (.valueError breakMsg))) := by
  constructor
  · intro fuel d line h
    have h' : '\n' ∈ line := by simpa using h
    refine ⟨?_, ?_, ?_⟩ <;> simp [funyuFeed, h', breakMsg]
  · intro fuel d line h
    have h' : '\n' ∈ line := by simpa using h
    simp [hunyuFeed, h', breakMsg]

/-- C9 witness: both halves applied to a concrete line with an internal
line break, in a fresh document state. -/
theorem C9_witness :
    (str "a\nb").contains '\n' = true ∧
    (funyuFeed 1 funyuInit (str "a\nb")).2 = some (.valueError breakMsg) ∧
    hunyuFeed 1 hunyuInit (str "a\nb") = (hunyuInit, some (.valueError breakMsg)) :=
  ⟨by decide, (C9_theorem.1 1 funyuInit (str "a\nb") (by decide)).2.2,
    C9_theorem.2 1 hunyuInit (str "a\nb") (by decide)⟩

/-- C10: Funyu.feed increments its line counter before checking the
no-line-break precondition, so a rejected feed still advances the counter
(the feed is not atomic on the driver state), and a later syntax error is
numbered counting the rejected line: after a fresh document rejects one
line-break line, the next malformed metadata line is reported at line
two. -/
theorem C10_theorem :
    (∀ (fuel : Nat) (d : FDoc) (line : Str), line.contains '\n' = true →
       funyuFeed fuel d line =
         ({ d with lineNumber := d.lineNumber + 1 }, some (.valueError breakMsg))) ∧
    (funyuFeed 1 (funyuFeed 1 funyuInit (str "a\nb")).1 (str ":x")).2 =
      some (.synErr (some 2) (str "key is required.")) := by
  constructor
  · intro fuel d line h
    have h' : '\n' ∈ line := by simpa using h
    simp [funyuFeed, h', breakMsg]
  · rfl

/-- C10 witness: the increment-before-check theorem applied to a fresh
document and a concrete rejected line. -/
theorem C10_witness :
    (str "a\nb").contains '\n' = true ∧
    funyuFeed 1 funyuInit (str "a\nb") =
      ({ funyuInit with lineNumber := funyuInit.lineNumber + 1 },
        some (.valueError breakMsg)) :=
  ⟨by decide, C10_theorem.1 1 funyuInit (str "a\nb") (by decide)⟩

/-- C5 counterexample: the hunyu driver re-raises a fatal syntax error
with no line-number annotation at all (its error value carries none),
unlike the funyu driver, which annotates the same error with line one —
so the claim that every fatal syntax error raised while feeding the
document driver is annotated with the 1-based line number fails on the
hunyu variant. -/
theorem C5_counterexample :
    hunyuFeed 1 hunyuInit (str ":x") =
      (hunyuInit, some (.synErr none (str "key is required."))) ∧
    (funyuFeed 1 funyuInit (str ":x")).2 =
      some (.synErr (some 1) (str "key is required.")) :=
  ⟨rfl, rfl⟩

/-- C5 (amended): in the funyu variant, the driver's line counter
advances by one on every feed call, every fatal syntax error escaping a
feed is annotated with the 1-based number of the line that caused it,
and the counter accumulates across a whole error-free list of fed lines,
hence across parse, which feeds the split lines in order. -/
theorem C5_theorem :
    (∀ (fuel : Nat) (d : FDoc) (line : Str),
       (funyuFeed fuel d line).1.lineNumber = d.lineNumber + 1) ∧
    (∀ (fuel : Nat) (d : FDoc) (line : Str) (n : Option Nat) (msg : Str),
       (funyuFeed fuel d line).2 = some (.synErr n msg) →
       n = some (d.lineNumber + 1)) ∧
    (∀ (fuel : Nat) (d : FDoc) (ls : List Str),
       (funyuFeedList fuel d ls).2 = none →
       (funyuFeedList fuel d ls).1.lineNumber = d.lineNumber + ls.length) ∧
    (∀ (fuel : Nat) (d : FDoc) (text : Str),
       (funyuParse fuel d text).2 = none →
       (funyuParse fuel d text).1.lineNumber =
         d.lineNumber + (splitLines text).length) := by
  have hcount := funyuFeed_lineNumber
  have hlist : ∀ (fuel : Nat) (ls : List Str) (d : FDoc),
      (funyuFeedList fuel d ls).2 = none →
      (funyuFeedList fuel d ls).1.lineNumber = d.lineNumber + ls.length := by
    intro fuel ls
    induction ls with
    | nil => intro d _; rfl
    | cons l rest ih =>
      intro d h
      rw [funyuFeedList] at h ⊢
      cases hf : funyuFeed fuel d l with
      | mk d' e =>
        cases e with
        | none =>
          simp only [hf] at h ⊢
          rw [ih d' h]
          have : d'.lineNumber = d.lineNumber + 1 := by
            have := hcount fuel d l
            rwa [hf] at this
          rw [this, List.length_cons]
          omega
        | some err =>
          simp only [hf] at h
          exact Option.noConfusion h
  refine ⟨hcount, ?_, fun fuel d ls => hlist fuel ls d,
    fun fuel d text => hlist fuel (splitLines text) d⟩
  intro fuel d line n msg h
  rw [funyuFeed] at h
  split at h
  · simp only [Prod.snd] at h
    cases h
  · split at h
    · split at h
      · simp at h
      · rename_i e heq
        simp only [Prod.snd, Option.some.injEq] at h
        cases e with
        | synErr n' msg' =>
          injection h with h1 h2
          exact h1.symm
        | valueError m => exact PyErr.noConfusion h
    · split at h
      · simp at h
      · rename_i e heq
        simp only [Prod.snd, Option.some.injEq] at h
        cases e with
        | synErr n' msg' =>
          injection h with h1 h2
          exact h1.symm
        | valueError m => exact PyErr.noConfusion h

/-- C5 witness: the annotation theorem applied to a concrete malformed
metadata line fed to a fresh funyu document. -/
theorem C5_witness :
    (funyuFeed 1 funyuInit (str ":x")).2 =
      some (.synErr (some 1) (str "key is required.")) ∧
    (some 1 : Option Nat) = some (funyuInit.lineNumber + 1) :=
  ⟨rfl, C5_theorem.2.1 1 funyuInit (str ":x") (some 1) (str "key is required.") rfl⟩

/-!  ## Claim C6: splitting, joining and stripping lemmas -/

theorem splitOnChar_ne_nil (c : Char) (s : Str) : splitOnChar c s ≠ [] := by
  cases s with
  | nil => simp [splitOnChar]
  | cons x xs =>
    rw [splitOnChar]
    split
    · simp
    · split <;> simp

theorem joinWith_splitOnChar (c : Char) (s : Str) :
    joinWith c (splitOnChar c s) = s := by
  induction s with
  | nil => rfl
  | cons x xs ih =>
    rw [splitOnChar]
    by_cases hx : x = c
    · rw [if_pos hx]
      cases hs : splitOnChar c xs with
      | nil => exact absurd hs (splitOnChar_ne_nil c xs)
      | cons h t =>
        rw [hs] at ih
        show [] ++ c :: joinWith c (h :: t) = x :: xs
        rw [ih, List.nil_append, hx]
    · rw [if_neg hx]
      cases hs : splitOnChar c xs with
      | nil => exact absurd hs (splitOnChar_ne_nil c xs)
      | cons h t =>
        rw [hs] at ih
        cases t with
        | nil =>
          have ih' : h = xs := ih
          show x :: h = x :: xs
          rw [ih']
        | cons t1 ts =>
          have ih' : h ++ c :: joinWith c (t1 :: ts) = xs := ih
          show (x :: h) ++ c :: joinWith c (t1 :: ts) = x :: xs
          rw [List.cons_append, ih']

theorem splitOnChar_not_mem {c : Char} {s : Str} (h : c ∉ s) :
    splitOnChar c s = [s] := by
  induction s with
  | nil => rfl
  | cons x xs ih =>
    have hx : x ≠ c := fun he => h (he ▸ List.mem_cons_self x xs)
    have hxs : c ∉ xs := fun hm => h (List.mem_cons_of_mem x hm)
    rw [splitOnChar, if_neg hx, ih hxs]

theorem splitOnChar_append_cons {c : Char} {k : Str} (r : Str) (h : c ∉ k) :
    splitOnChar c (k ++ c :: r) = k :: splitOnChar c r := by
  induction k with
  | nil => simp [splitOnChar]
  | cons x xs ih =>
    have hx : x ≠ c := fun he => h (he ▸ List.mem_cons_self x xs)
    have hxs : c ∉ xs := fun hm => h (List.mem_cons_of_mem x hm)
    rw [List.cons_append, splitOnChar, if_neg hx, ih hxs]

theorem stripped_dropWhile {v : Str} (h : strip v = v) :
    v.dropWhile isPySpace = v := by
  have hsub : (v.dropWhile isPySpace).Sublist v := List.dropWhile_sublist _
  refine hsub.eq_of_length ?_
  have h1 : (strip v).length ≤ (v.dropWhile isPySpace).length := by
    rw [strip]
    calc (((v.dropWhile isPySpace).reverse.dropWhile isPySpace).reverse).length
        = ((v.dropWhile isPySpace).reverse.dropWhile isPySpace).length := by
          rw [List.length_reverse]
      _ ≤ (v.dropWhile isPySpace).reverse.length :=
          ((List.dropWhile_sublist _).length_le)
      _ = (v.dropWhile isPySpace).length := by rw [List.length_reverse]
  have h2 : (v.dropWhile isPySpace).length ≤ v.length := hsub.length_le
  rw [h] at h1
  omega

theorem stripped_reverse_dropWhile {v : Str} (h : strip v = v) :
    v.reverse.dropWhile isPySpace = v.reverse := by
  have hd := stripped_dropWhile h
  rw [strip, hd] at h
  have : (v.reverse.dropWhile isPySpace).reverse.reverse = v.reverse := by
    rw [h]
  rwa [List.reverse_reverse] at this

theorem strip_space_cons {x : Char} {v : Str} (hx : isPySpace x = true)
    (hv : strip v = v) : strip (x :: v) = v := by
  rw [strip, List.dropWhile_cons_of_pos hx, stripped_dropWhile hv,
    stripped_reverse_dropWhile hv, List.reverse_reverse]

theorem stripped_head_not_space {c : Char} {t : Str}
    (h : strip (c :: t) = c :: t) : isPySpace c = false := by
  have hd := stripped_dropWhile h
  by_cases hc : isPySpace c
  · rw [List.dropWhile_cons_of_pos hc] at hd
    have := congrArg List.length hd
    have hle : (t.dropWhile isPySpace).length ≤ t.length :=
      (List.dropWhile_sublist _).length_le
    simp [List.length_cons] at this
    omega
  · exact Bool.of_not_eq_true hc

theorem strip_append_ne_nil {k z : Str} (hk : strip k = k) (hne : k ≠ []) :
    strip (k ++ z) ≠ [] := by
  cases k with
  | nil => exact absurd rfl hne
  | cons c t =>
    intro hnil
    have hall := strip_nil_all_space hnil
    have hc : isPySpace c = true := hall c (by simp)
    have := stripped_head_not_space hk
    simp_all

/-!  ## Claim C6: metadata feeding and the round trip -/

/-- MetaData.feed on a line with a colon: the key is the trimmed text
before the first colon, the value the trimmed rejoined rest; an empty
trimmed key is the key-required error. -/
theorem metaFeed_split {m : Meta} (hm : m.ended = false) {k : Str} (r : Str)
    (hk : ':' ∉ k) (hnb : strip (k ++ ':' :: r) ≠ []) :
    metaFeed m (k ++ ':' :: r) =
      if strip k = [] then .error (.synErr none (str "key is required."))
      else .ok ({ m with items := setItem m.items (strip k) (strip r) }, .done) := by
  have hcol : (k ++ ':' :: r).contains ':' = true := by simp
  rw [metaFeed, if_neg (by simp [hm]), if_neg hnb, hcol]
  rw [if_neg (by simp), splitOnChar_append_cons r hk, List.headI_cons,
    List.tail_cons, joinWith_splitOnChar]

theorem setItem_append {acc : List (Str × Str)} {k v : Str}
    (h : k ∉ acc.map Prod.fst) : setItem acc k v = acc ++ [(k, v)] := by
  induction acc with
  | nil => rfl
  | cons p rest ih =>
    have hne : p.1 ≠ k := by
      intro he
      exact h (by rw [← he]; exact List.mem_map_of_mem Prod.fst (List.mem_cons_self p rest))
    cases p with
    | mk pk pv =>
      rw [setItem, if_neg hne, ih (fun hm => h (List.mem_cons_of_mem _ hm))]
      rfl

/-- Feeding the rendered metadata lines back accumulates exactly the
original pairs, in order. -/
theorem metaFeedList_render (pairs : List (Str × Str)) :
    ∀ acc : List (Str × Str),
      (∀ kv ∈ pairs, validPair kv) →
      (acc.map Prod.fst ++ pairs.map Prod.fst).Nodup →
      metaFeedList ⟨false, acc⟩
          (pairs.map (fun kv => kv.1 ++ str ": " ++ kv.2)) =
        .ok ⟨false, acc ++ pairs⟩ := by
  induction pairs with
  | nil =>
    intro acc _ _
    simp [metaFeedList]
  | cons kv rest ih =>
    intro acc hvalid hnd
    cases kv with
    | mk k v =>
      rcases hvalid (k, v) (List.mem_cons_self _ _) with ⟨hk1, hk2, hk3, -, hv1, -⟩
      have hline : k ++ str ": " ++ v = k ++ ':' :: (' ' :: v) := by
        rw [List.append_assoc]
        rfl
      have hval : strip (' ' :: v) = v := strip_space_cons (by decide) hv1
      have hknotin : k ∉ acc.map Prod.fst := by
        rw [List.nodup_append] at hnd
        exact fun hmem => hnd.2.2 hmem (by simp)
      have hfeed : metaFeed ⟨false, acc⟩ (k ++ str ": " ++ v) =
          .ok (⟨false, acc ++ [(k, v)]⟩, .done) := by
        rw [hline, metaFeed_split rfl (' ' :: v) hk3
          (strip_append_ne_nil hk1 hk2), hval, if_neg (by rw [hk1]; exact hk2), hk1]
        rw [setItem_append hknotin]
      rw [List.map_cons, metaFeedList, hfeed]
      have hnd' : ((acc ++ [(k, v)]).map Prod.fst ++ rest.map Prod.fst).Nodup := by
        rw [List.map_append]
        rw [List.append_assoc]
        simpa using hnd
      show metaFeedList ⟨false, acc ++ [(k, v)]⟩
          (rest.map (fun kv => kv.1 ++ str ": " ++ kv.2)) =
        Except.ok ⟨false, acc ++ (k, v) :: rest⟩
      rw [ih (acc ++ [(k, v)]) (fun p hp => hvalid p (List.mem_cons_of_mem _ hp)) hnd']
      rw [List.append_assoc]
      rfl

/-- Splitting off one boundary-free line followed by its newline
separator: splitlines emits that line and continues after the
separator. -/
theorem splitLinesAux_line {l : Str} (hl : ∀ c ∈ l, isLineBoundary c = false) :
    ∀ (g : Nat) (rest acc : Str),
      splitLinesAux (l.length + (g + 1)) (l ++ '\n' :: rest) acc =
        (acc.reverse ++ l) :: splitLinesAux g rest [] := by
  induction l with
  | nil =>
    intro g rest acc
    rw [List.length_nil, Nat.zero_add, List.nil_append, splitLinesAux]
    rw [if_pos (by decide : isLineBoundary '\n' = true)]
    rw [if_neg (fun hcr => absurd hcr.1 (by decide))]
    rw [List.append_nil]
  | cons c l' ih =>
    intro g rest acc
    have hc : isLineBoundary c = false := hl c (List.mem_cons_self c l')
    have hf : (c :: l').length + (g + 1) = l'.length + (g + 1) + 1 := by
      rw [List.length_cons]
      omega
    rw [hf, List.cons_append, splitLinesAux, if_neg (by simp [hc])]
    rw [ih (fun x hx => hl x (List.mem_cons_of_mem c hx)) g rest (c :: acc)]
    simp

/-- splitlines inverts the newline-joined-plus-trailing-newline
serialization when no piece contains a line-boundary character. -/
theorem splitLines_joinWith : ∀ {lines : List Str},
    (∀ l ∈ lines, ∀ c ∈ l, isLineBoundary c = false) → lines ≠ [] →
    splitLines (joinWith '\n' lines ++ ['\n']) = lines := by
  intro lines
  induction lines with
  | nil => intro _ h; exact absurd rfl h
  | cons x rest ih =>
    intro hnl _
    have hx : ∀ c ∈ x, isLineBoundary c = false := hnl x (List.mem_cons_self x rest)
    cases rest with
    | nil =>
      show splitLines (x ++ ['\n']) = [x]
      rw [splitLines]
      have hf : (x ++ ['\n']).length + 1 = x.length + (1 + 1) := by
        rw [List.length_append]
        rfl
      rw [hf, splitLinesAux_line hx 1 [] []]
      simp [splitLinesAux]
    | cons y t =>
      show splitLines ((x ++ '\n' :: joinWith '\n' (y :: t)) ++ ['\n']) = x :: y :: t
      have he : (x ++ '\n' :: joinWith '\n' (y :: t)) ++ ['\n'] =
          x ++ '\n' :: (joinWith '\n' (y :: t) ++ ['\n']) := by simp
      rw [he, splitLines]
      have hf : (x ++ '\n' :: (joinWith '\n' (y :: t) ++ ['\n'])).length + 1 =
          x.length + (((joinWith '\n' (y :: t)).length + 2) + 1) := by
        simp only [List.length_append, List.length_cons, List.length_nil]
        omega
      rw [hf, splitLinesAux_line hx ((joinWith '\n' (y :: t)).length + 2)
        (joinWith '\n' (y :: t) ++ ['\n']) []]
      have hIH : splitLines (joinWith '\n' (y :: t) ++ ['\n']) = y :: t :=
        ih (fun l hl => hnl l (List.mem_cons_of_mem x hl)) (by simp)
      rw [splitLines] at hIH
      have hlen2 : (joinWith '\n' (y :: t) ++ ['\n']).length + 1 =
          (joinWith '\n' (y :: t)).length + 2 := by
        simp only [List.length_append, List.length_cons, List.length_nil]
      rw [hlen2] at hIH
      rw [hIH]
      simp

/-- C6 counterexample: the metadata mapping reachable by feeding the
line `k: a<CR>b` (the driver's precondition rejects only embedded
newlines, so a bare carriage return passes) serializes to text that
splitlines cuts at the carriage return, and re-feeding the resulting
lines fails with the separator syntax error instead of reproducing the
mapping, so the unrestricted round-trip claim is false of the program. -/
theorem C6_counterexample :
    (funyuFeed 1 funyuInit (str "k: a\rb")).2 = none ∧
    metaFeed ⟨false, []⟩ (str "k: a\rb") =
      .ok (⟨false, [(str "k", str "a\rb")]⟩, .done) ∧
    splitLines (metaAsFunyu [(str "k", str "a\rb")]) = [str "k: a", str "b"] ∧
    metaFeedList ⟨false, []⟩ (splitLines (metaAsFunyu [(str "k", str "a\rb")])) =
      .error (.synErr none
        (str "metadata block expects key-value separated by semicolon.")) :=
  ⟨rfl, rfl, rfl, rfl⟩

/-- C6 (amended): serializing a metadata mapping of valid pairs — trimmed
colon-free non-empty keys and trimmed values, neither containing any
line-boundary character of splitlines — and feeding the lines of that
text into a fresh metadata block yields exactly the same key-value
mapping in the same order; and each fed line is split into the trimmed
key before its first colon and the trimmed colon-rejoined rest as its
value.  Values holding a non-newline boundary character such as a bare
carriage return are reachable but break the round trip. -/
theorem C6_theorem :
    (∀ items : List (Str × Str), (∀ kv ∈ items, validPair kv) →
       (items.map Prod.fst).Nodup →
       (metaFeedList ⟨false, []⟩ (splitLines (metaAsFunyu items))).map Meta.items =
         .ok items) ∧
    (∀ (m : Meta) (k r : Str), m.ended = false → ':' ∉ k →
       strip (k ++ ':' :: r) ≠ [] →
       metaFeed m (k ++ ':' :: r) =
         if strip k = [] then .error (.synErr none (str "key is required."))
         else .ok ({ m with items := setItem m.items (strip k) (strip r) },
           .done)) := by
  constructor
  · intro items hvalid hnd
    cases hitems : items with
    | nil => rfl
    | cons kv rest =>
      rw [← hitems]
      have hlines : ∀ l ∈ items.map (fun kv => kv.1 ++ str ": " ++ kv.2),
          ∀ c ∈ l, isLineBoundary c = false := by
        intro l hl
        rw [List.mem_map] at hl
        rcases hl with ⟨p, hp, hpl⟩
        rcases hvalid p hp with ⟨-, -, -, hnk, -, hnv⟩
        rw [← hpl]
        intro c hmem
        rcases List.mem_append.mp hmem with hmem' | hmem'
        · rcases List.mem_append.mp hmem' with h1 | h1
          · exact hnk c h1
          · have hcs : c = ':' ∨ c = ' ' := by simpa [str] using h1
            rcases hcs with h' | h' <;> rw [h'] <;> rfl
        · exact hnv c hmem'
      have hne : items.map (fun kv => kv.1 ++ str ": " ++ kv.2) ≠ [] := by
        rw [hitems]; simp
      rw [metaAsFunyu, splitLines_joinWith hlines hne]
      rw [metaFeedList_render items [] hvalid (by simpa using hnd)]
      rfl
  · intro m k r hm hk hnb
    exact metaFeed_split hm r hk hnb

/-- C6 witness: the round trip applied to a concrete two-entry mapping
whose first value itself contains colons, and the first-colon splitting
applied to a concrete line. -/
theorem C6_witness :
    (∀ kv ∈ [(str "title", str "a:b:c"), (str "author", str "MacRat")], validPair kv) ∧
    (metaFeedList ⟨false, []⟩ (splitLines (metaAsFunyu
        [(str "title", str "a:b:c"), (str "author", str "MacRat")]))).map Meta.items =
      .ok [(str "title", str "a:b:c"), (str "author", str "MacRat")] ∧
    metaFeed ⟨false, []⟩ (str "key" ++ ':' :: str " a:b ") =
      .ok (⟨false, [(str "key", str "a:b")]⟩, .done) := by
  refine ⟨by decide, ?_, ?_⟩
  · exact C6_theorem.1 [(str "title", str "a:b:c"), (str "author", str "MacRat")]
      (by decide) (by decide)
  · have := C6_theorem.2 ⟨false, []⟩ (str "key") (str " a:b ") rfl (by decide)
      (by decide)
    rw [this]
    rfl

/-!  ## Claim C4: the greedy link match on composite strings -/

theorem lastMatchAux_found {pat s : Str} {j : Nat}
    (hpre : pat.isPrefixOf (s.drop j) = true) :
    ∀ n, j ≤ n → (∀ i, j < i → i ≤ n → pat.isPrefixOf (s.drop i) = false) →
      lastMatchAux pat s n = some j := by
  intro n
  induction n with
  | zero =>
    intro hj _
    have h0 : j = 0 := Nat.le_zero.mp hj
    subst h0
    rw [List.drop_zero] at hpre
    rw [lastMatchAux, if_pos hpre]
  | succ n ih =>
    intro hj hno
    rw [lastMatchAux]
    by_cases hp : pat.isPrefixOf (s.drop (n + 1)) = true
    · rw [if_pos hp]
      have hj' : j = n + 1 := by
        by_contra hne
        have hlt : j < n + 1 := by omega
        have := hno (n + 1) hlt (Nat.le_refl _)
        rw [this] at hp
        cases hp
      rw [hj']
    · rw [if_neg hp]
      have hjn : j ≤ n := by
        by_contra hgt
        have hj' : j = n + 1 := by omega
        rw [hj'] at hpre
        exact hp hpre
      exact ih hjn (fun i h1 h2 => hno i h1 (by omega))

theorem lastMatch_concat (P : Str) :
    lastMatch [')'] (P ++ [')']) = some P.length := by
  rw [lastMatch]
  have hlen : (P ++ [')']).length = P.length + 1 := by
    rw [List.length_append]
    rfl
  rw [hlen]
  apply lastMatchAux_found
  · rw [List.drop_left]
    rfl
  · omega
  · intro i h1 h2
    have hi : i = P.length + 1 := by omega
    subst hi
    have hd : (P ++ [')']).drop (P.length + 1) = [] := by
      refine List.drop_eq_nil_of_le ?_
      rw [hlen]
    rw [hd]
    rfl

theorem lastMatchAux_sep (u w' : Str) (hw : ']' ∉ w') (dd : Nat) :
    lastMatchAux (str "](") (u ++ ']' :: '(' :: w') (u.length + dd) =
      some u.length := by
  apply lastMatchAux_found
  · rw [List.drop_left]
    rw [show str "](" = ']' :: ['('] from rfl]
    simp [List.isPrefixOf]
  · omega
  · intro i h1 h2
    have e : (u ++ ']' :: '(' :: w').drop i = ('(' :: w').drop (i - u.length - 1) := by
      have e2 : (u ++ ']' :: '(' :: w').drop (u.length + 1) = '(' :: w' := by
        rw [show u ++ ']' :: '(' :: w' = (u ++ [']']) ++ ('(' :: w') by simp]
        refine List.drop_left' ?_
        rw [List.length_append]
        rfl
      conv_rhs => rw [← e2]
      rw [List.drop_drop]
      congr 1
      omega
    rw [e, show str "](" = ']' :: ['('] from rfl]
    refine not_prefixOf_drop_of_not_mem ?_
    intro hm
    rcases List.mem_cons.mp hm with h | h
    · exact absurd h (by decide)
    · exact hw h

theorem linkBody_shape (U V : Str) (hv : ']' ∉ V) :
    linkBody (U ++ ']' :: '(' :: (V ++ [')'])) =
      some (U, (V, U.length + V.length + 3)) := by
  have hP : U ++ ']' :: '(' :: (V ++ [')']) = (U ++ ']' :: '(' :: V) ++ [')'] := by
    simp
  have hlenP : (U ++ ']' :: '(' :: V).length = U.length + V.length + 2 := by
    simp [List.length_append]
    omega
  have hk : lastMatch [')'] (U ++ ']' :: '(' :: (V ++ [')'])) =
      some (U.length + V.length + 2) := by
    rw [hP, lastMatch_concat, hlenP]
  have hsep : lastMatchAux (str "](") (U ++ ']' :: '(' :: (V ++ [')']))
      (U.length + V.length + 2 - 2) = some U.length := by
    have harith : U.length + V.length + 2 - 2 = U.length + V.length := by omega
    rw [harith]
    exact lastMatchAux_sep U (V ++ [')'])
      (fun hm => by
        rcases List.mem_append.mp hm with h | h
        · exact hv h
        · rcases List.mem_singleton.mp h with h'
          exact absurd h' (by decide)) V.length
  rw [linkBody, hk, Option.some_bind, if_pos (by omega), hsep]
  simp only [Option.map_some']
  have htake : (U ++ ']' :: '(' :: (V ++ [')'])).take U.length = U :=
    List.take_left U _
  have hdrop : (U ++ ']' :: '(' :: (V ++ [')'])).drop (U.length + 2) = V ++ [')'] := by
    rw [show U ++ ']' :: '(' :: (V ++ [')']) = (U ++ [']', '(']) ++ (V ++ [')']) by simp]
    refine List.drop_left' ?_
    rw [List.length_append]
    rfl
  rw [htake, hdrop]
  have harith2 : U.length + V.length + 2 - (U.length + 2) = V.length := by omega
  rw [harith2, List.take_left V [')']]

/-- The IMG-tag alternative cannot match unless the text before the
inner opening bracket itself starts with the IMG tag: for shorter texts
the bracket falls inside the tag's four characters, and for longer texts
only those four characters are examined. -/
theorem IMG_prefix_extend {a : Str} (ha : (str "IMG:").isPrefixOf a = false)
    (B : Str) : (str "IMG:").isPrefixOf (a ++ '[' :: B) = false := by
  have e : str "IMG:" = 'I' :: 'M' :: 'G' :: [':'] := rfl
  match a with
  | [] =>
    rw [List.nil_append, e]
    exact cons_isPrefixOf_cons_false (by decide)
  | [x] =>
    rw [e]
    show ('I' :: 'M' :: 'G' :: [':']).isPrefixOf (x :: '[' :: B) = false
    simp [List.isPrefixOf, (by decide : (('M' : Char) == '[') = false)]
  | [x, y] =>
    rw [e]
    show ('I' :: 'M' :: 'G' :: [':']).isPrefixOf (x :: y :: '[' :: B) = false
    simp [List.isPrefixOf, (by decide : (('G' : Char) == '[') = false)]
  | [x, y, z] =>
    rw [e]
    show ('I' :: 'M' :: 'G' :: [':']).isPrefixOf (x :: y :: z :: '[' :: B) = false
    simp [List.isPrefixOf, (by decide : (((':') : Char) == '[') = false)]
  | x :: y :: z :: w :: rest =>
    have e1 : (str "IMG:").isPrefixOf ((x :: y :: z :: w :: rest) ++ '[' :: B) =
        (str "IMG:").isPrefixOf (x :: y :: z :: w :: rest) := by
      simp [List.isPrefixOf]
    rw [e1]
    exact ha

/-- A link-pattern match anywhere in the second part gives re.search a
hit on the whole string. -/
theorem findLink_isSome_append (s₁ s₂ : Str)
    (h : (linkMatchAt s₂).isSome = true) :
    (findLink (s₁ ++ s₂)).isSome = true := by
  induction s₁ with
  | nil =>
    rw [List.nil_append]
    cases s₂ with
    | nil => rw [show linkMatchAt [] = none from rfl] at h; cases h
    | cons c rest =>
      rw [findLink]
      cases hm : linkMatchAt (c :: rest) with
      | some m => simp [hm]
      | none => rw [hm] at h; cases h
  | cons x xs ih =>
    rw [List.cons_append, findLink]
    cases hm : linkMatchAt (x :: (xs ++ s₂)) with
    | some m => simp [hm]
    | none =>
      cases hf : findLink (xs ++ s₂) with
      | none => rw [hf] at ih; cases ih
      | some pm => simp [hm, hf]

/-- The inner link pattern matches at its opening bracket, whatever the
optional IMG tag would make of the following text. -/
theorem linkMatchAt_isSome_of_shape (b c : Str) (hc : ']' ∉ c) :
    (linkMatchAt ('[' :: (b ++ ']' :: '(' :: (c ++ [')'])))).isSome = true := by
  have hbody : linkBody (b ++ ']' :: '(' :: (c ++ [')'])) =
      some (b, (c, b.length + c.length + 3)) := linkBody_shape b c hc
  rw [linkMatchAt, if_pos rfl]
  by_cases himg : (str "IMG:").isPrefixOf (b ++ ']' :: '(' :: (c ++ [')'])) = true
  · rw [if_pos himg]
    cases h4 : linkBody ((b ++ ']' :: '(' :: (c ++ [')'])).drop 4) with
    | some p =>
      cases p with
      | mk t un =>
        cases un with
        | mk u n => simp [h4]
    | none => simp [h4, hbody]
  · rw [if_neg himg]
    simp [hbody]

/-- funyu's scanner on any line of the shape of a link whose text part
itself contains a link pattern: the global link pass matches the whole
line as one link, the nested-link check on its text part fires, and the
scan aborts with the nesting error. -/
theorem funyuString_nestedLink (a b c d : Str)
    (_ha : inlineClean a) (_hb : inlineClean b) (hc : inlineClean c)
    (hd : inlineClean d) (himg : (str "IMG:").isPrefixOf a = false) :
    funyuString
      ('[' :: (a ++ '[' :: (b ++ ']' :: '(' :: (c ++ ')' :: ']' :: '(' :: (d ++ [')']))))) =
      .error nestMsg := by
  have hdm : ']' ∉ d := (inlineClean_not_mem hd).2.1
  have hcm : ']' ∉ c := (inlineClean_not_mem hc).2.1
  have hReq : a ++ '[' :: (b ++ ']' :: '(' :: (c ++ ')' :: ']' :: '(' :: (d ++ [')']))) =
      (a ++ '[' :: (b ++ ']' :: '(' :: (c ++ [')']))) ++ ']' :: '(' :: (d ++ [')']) := by
    simp
  have hQlen :
      (a ++ '[' :: (b ++ ']' :: '(' :: (c ++ [')']))).length =
        a.length + b.length + c.length + 4 := by
    simp [List.length_append]
    omega
  have hbody :
      linkBody (a ++ '[' :: (b ++ ']' :: '(' :: (c ++ ')' :: ']' :: '(' :: (d ++ [')'])))) =
        some ((a ++ '[' :: (b ++ ']' :: '(' :: (c ++ [')']))),
          (d, (a ++ '[' :: (b ++ ']' :: '(' :: (c ++ [')']))).length + d.length + 3)) := by
    rw [hReq]
    exact linkBody_shape _ d hdm
  have hIMG :
      (str "IMG:").isPrefixOf
        (a ++ '[' :: (b ++ ']' :: '(' :: (c ++ ')' :: ']' :: '(' :: (d ++ [')'])))) =
        false := IMG_prefix_extend himg _
  have hmatch :
      linkMatchAt
        ('[' :: (a ++ '[' :: (b ++ ']' :: '(' :: (c ++ ')' :: ']' :: '(' :: (d ++ [')']))))) =
        some ⟨false, (a ++ '[' :: (b ++ ']' :: '(' :: (c ++ [')']))), d,
          1 + ((a ++ '[' :: (b ++ ']' :: '(' :: (c ++ [')']))).length + d.length + 3)⟩ := by
    rw [linkMatchAt, if_pos rfl, if_neg (by rw [hIMG]; exact Bool.false_ne_true), hbody]
    rfl
  have hslen :
      ('[' :: (a ++ '[' :: (b ++ ']' :: '(' :: (c ++ ')' :: ']' :: '(' :: (d ++ [')']))))).length =
        1 + ((a ++ '[' :: (b ++ ']' :: '(' :: (c ++ [')']))).length + d.length + 3) := by
    rw [List.length_cons, hReq, List.length_append, hQlen]
    simp [List.length_append]
    omega
  have hfind :
      findLink
        ('[' :: (a ++ '[' :: (b ++ ']' :: '(' :: (c ++ ')' :: ']' :: '(' :: (d ++ [')']))))) =
        some (0, ⟨false, (a ++ '[' :: (b ++ ']' :: '(' :: (c ++ [')']))), d,
          1 + ((a ++ '[' :: (b ++ ']' :: '(' :: (c ++ [')']))).length + d.length + 3)⟩) := by
    rw [findLink, hmatch]
  have hsearch : linkSearch (a ++ '[' :: (b ++ ']' :: '(' :: (c ++ [')']))) = true := by
    show (findLink (a ++ '[' :: (b ++ ']' :: '(' :: (c ++ [')'])))).isSome = true
    exact findLink_isSome_append a _ (linkMatchAt_isSome_of_shape b c hcm)
  have hdropAll :
      ('[' :: (a ++ '[' :: (b ++ ']' :: '(' :: (c ++ ')' :: ']' :: '(' :: (d ++ [')']))))).drop
        (0 + (1 + ((a ++ '[' :: (b ++ ']' :: '(' :: (c ++ [')']))).length + d.length + 3))) =
        [] := by
    refine List.drop_eq_nil_of_le ?_
    rw [hslen]
    omega
  rw [funyuString, funyuStringF]
  have hsplit :
      splitLinks
        ('[' :: (a ++ '[' :: (b ++ ']' :: '(' :: (c ++ ')' :: ']' :: '(' :: (d ++ [')']))))) =
        ([([],
          ⟨false, (a ++ '[' :: (b ++ ']' :: '(' :: (c ++ [')']))), d,
            1 + ((a ++ '[' :: (b ++ ']' :: '(' :: (c ++ [')']))).length + d.length + 3)⟩)],
          []) := by
    rw [splitLinks, splitLinksF, hfind]
    simp only [hdropAll, List.take_zero]
    have hz : splitLinksF
        ('[' :: (a ++ '[' :: (b ++ ']' :: '(' :: (c ++ ')' :: ']' :: '(' :: (d ++ [')']))))).length
        [] = ([], []) := by
      rw [List.length_cons, splitLinksF]
      rfl
    rw [hz]
  rw [hsplit]
  rw [funyuAssemble]
  have hgap : procStrLoop
      (funyuStringF
        ('[' :: (a ++ '[' :: (b ++ ']' :: '(' :: (c ++ ')' :: ']' :: '(' :: (d ++ [')']))))).length)
      (List.length ([] : Str) + 1) [] [] false = .ok [] := by
    rw [procStrLoop]
    rfl
  rw [hgap, hsearch]
  rfl

/-- funyu's scanner on any line of the shape of an image link whose text
part itself contains a link pattern: the IMG-tagged alternative of the
link regex matches the whole line, the nested-link check runs on the
image's text part before the image branch and fires, and the scan aborts
with the nesting error. -/
theorem funyuString_nestedImgLink (a b c d : Str)
    (_ha : inlineClean a) (_hb : inlineClean b) (hc : inlineClean c)
    (hd : inlineClean d) :
    funyuString
      ('[' :: 'I' :: 'M' :: 'G' :: ':' ::
        (a ++ '[' :: (b ++ ']' :: '(' :: (c ++ ')' :: ']' :: '(' :: (d ++ [')']))))) =
      .error nestMsg := by
  have hdm : ']' ∉ d := (inlineClean_not_mem hd).2.1
  have hcm : ']' ∉ c := (inlineClean_not_mem hc).2.1
  have hReq : a ++ '[' :: (b ++ ']' :: '(' :: (c ++ ')' :: ']' :: '(' :: (d ++ [')']))) =
      (a ++ '[' :: (b ++ ']' :: '(' :: (c ++ [')']))) ++ ']' :: '(' :: (d ++ [')']) := by
    simp
  have hQlen :
      (a ++ '[' :: (b ++ ']' :: '(' :: (c ++ [')']))).length =
        a.length + b.length + c.length + 4 := by
    simp [List.length_append]
    omega
  have hbody :
      linkBody (a ++ '[' :: (b ++ ']' :: '(' :: (c ++ ')' :: ']' :: '(' :: (d ++ [')'])))) =
        some ((a ++ '[' :: (b ++ ']' :: '(' :: (c ++ [')']))),
          (d, (a ++ '[' :: (b ++ ']' :: '(' :: (c ++ [')']))).length + d.length + 3)) := by
    rw [hReq]
    exact linkBody_shape _ d hdm
  have hpre : (str "IMG:").isPrefixOf
      ('I' :: 'M' :: 'G' :: ':' ::
        (a ++ '[' :: (b ++ ']' :: '(' :: (c ++ ')' :: ']' :: '(' :: (d ++ [')']))))) =
      true := by
    simp [List.isPrefixOf, str]
  have hmatch :
      linkMatchAt
        ('[' :: 'I' :: 'M' :: 'G' :: ':' ::
          (a ++ '[' :: (b ++ ']' :: '(' :: (c ++ ')' :: ']' :: '(' :: (d ++ [')']))))) =
        some ⟨true, (a ++ '[' :: (b ++ ']' :: '(' :: (c ++ [')']))), d,
          5 + ((a ++ '[' :: (b ++ ']' :: '(' :: (c ++ [')']))).length + d.length + 3)⟩ := by
    rw [linkMatchAt, if_pos rfl, if_pos hpre]
    have hb4 : linkBody
        (('I' :: 'M' :: 'G' :: ':' ::
          (a ++ '[' :: (b ++ ']' :: '(' ::
            (c ++ ')' :: ']' :: '(' :: (d ++ [')']))))).drop 4) =
        some ((a ++ '[' :: (b ++ ']' :: '(' :: (c ++ [')']))),
          (d, (a ++ '[' :: (b ++ ']' :: '(' :: (c ++ [')']))).length + d.length + 3)) :=
      hbody
    rw [hb4]
  have hslen :
      ('[' :: 'I' :: 'M' :: 'G' :: ':' ::
        (a ++ '[' :: (b ++ ']' :: '(' :: (c ++ ')' :: ']' :: '(' :: (d ++ [')']))))).length =
        5 + ((a ++ '[' :: (b ++ ']' :: '(' :: (c ++ [')']))).length + d.length + 3) := by
    simp only [List.length_cons]
    rw [hReq, List.length_append, hQlen]
    simp [List.length_append]
    omega
  have hfind :
      findLink
        ('[' :: 'I' :: 'M' :: 'G' :: ':' ::
          (a ++ '[' :: (b ++ ']' :: '(' :: (c ++ ')' :: ']' :: '(' :: (d ++ [')']))))) =
        some (0, ⟨true, (a ++ '[' :: (b ++ ']' :: '(' :: (c ++ [')']))), d,
          5 + ((a ++ '[' :: (b ++ ']' :: '(' :: (c ++ [')']))).length + d.length + 3)⟩) := by
    rw [findLink, hmatch]
  have hsearch : linkSearch (a ++ '[' :: (b ++ ']' :: '(' :: (c ++ [')']))) = true := by
    show (findLink (a ++ '[' :: (b ++ ']' :: '(' :: (c ++ [')'])))).isSome = true
    exact findLink_isSome_append a _ (linkMatchAt_isSome_of_shape b c hcm)
  have hdropAll :
      ('[' :: 'I' :: 'M' :: 'G' :: ':' ::
        (a ++ '[' :: (b ++ ']' :: '(' :: (c ++ ')' :: ']' :: '(' :: (d ++ [')']))))).drop
        (0 + (5 + ((a ++ '[' :: (b ++ ']' :: '(' :: (c ++ [')']))).length + d.length + 3))) =
        [] := by
    refine List.drop_eq_nil_of_le ?_
    rw [hslen]
    omega
  rw [funyuString, funyuStringF]
  have hsplit :
      splitLinks
        ('[' :: 'I' :: 'M' :: 'G' :: ':' ::
          (a ++ '[' :: (b ++ ']' :: '(' :: (c ++ ')' :: ']' :: '(' :: (d ++ [')']))))) =
        ([([],
          ⟨true, (a ++ '[' :: (b ++ ']' :: '(' :: (c ++ [')']))), d,
            5 + ((a ++ '[' :: (b ++ ']' :: '(' :: (c ++ [')']))).length + d.length + 3)⟩)],
          []) := by
    rw [splitLinks, splitLinksF, hfind]
    simp only [hdropAll, List.take_zero]
    have hz : splitLinksF
        ('[' :: 'I' :: 'M' :: 'G' :: ':' ::
          (a ++ '[' :: (b ++ ']' :: '(' :: (c ++ ')' :: ']' :: '(' :: (d ++ [')']))))).length
        [] = ([], []) := by
      rw [List.length_cons, splitLinksF]
      rfl
    rw [hz]
  rw [hsplit]
  rw [funyuAssemble]
  have hgap : procStrLoop
      (funyuStringF
        ('[' :: 'I' :: 'M' :: 'G' :: ':' ::
          (a ++ '[' :: (b ++ ']' :: '(' :: (c ++ ')' :: ']' :: '(' :: (d ++ [')']))))).length)
      (List.length ([] : Str) + 1) [] [] false = .ok [] := by
    rw [procStrLoop]
    rfl
  rw [hgap, hsearch]
  rfl

/-- C4 counterexample: on the exact input from the specification, the
hunyu variant raises no error and instead builds a nested link (a Link
span whose content holds another Link span), so the claim that inline
scanning fails with the link-nesting error does not hold for the hunyu
source. -/
theorem C4_counterexample :
    hunyuString (str "[link in [link](uri)](uri)") =
      [.lit [], .link [.lit (str "link in "), .link [.lit (str "link")] (str "uri"),
        .lit []] (str "uri"), .lit []] ∧
    funyuString (str "[link in [link](uri)](uri)") = .error nestMsg :=
  ⟨rfl, rfl⟩

/-- C4 (amended): in the funyu variant, every line that is a link whose
text part itself contains a link pattern — any line of the shape of an
opening bracket, markup-free text not starting with the IMG tag, a
complete inner link of markup-free pieces, a close-open separator and a
markup-free uri — fails with the fatal syntax error about link nesting;
so does every image-link construct of that shape (the IMG-tagged line),
the inner link may itself be IMG-tagged (its text piece is then the tag
plus markup-free text), and in particular the specification's example
line fails exactly so; the hunyu variant produces a nested link
instead. -/
theorem C4_theorem :
    (∀ a b c d : Str, inlineClean a → inlineClean b → inlineClean c →
      inlineClean d → (str "IMG:").isPrefixOf a = false →
      funyuString
        ('[' :: (a ++ '[' :: (b ++ ']' :: '(' :: (c ++ ')' :: ']' :: '(' :: (d ++ [')']))))) =
        .error nestMsg) ∧
    (∀ a b c d : Str, inlineClean a → inlineClean b → inlineClean c →
      inlineClean d →
      funyuString
        ('[' :: 'I' :: 'M' :: 'G' :: ':' ::
          (a ++ '[' :: (b ++ ']' :: '(' :: (c ++ ')' :: ']' :: '(' :: (d ++ [')']))))) =
        .error nestMsg) ∧
    funyuString (str "[link in [link](uri)](uri)") = .error nestMsg :=
  ⟨funyuString_nestedLink, funyuString_nestedImgLink, rfl⟩

/-- C4 witness: the amended theorem applied to the concrete pieces of a
colon-bearing link line and of an image-link line, whose assembled forms
are exactly those lines. -/
theorem C4_witness :
    inlineClean (str "see: ") ∧ inlineClean (str "b") ∧
    inlineClean (str "c") ∧ inlineClean (str "d") ∧
    (str "IMG:").isPrefixOf (str "see: ") = false ∧
    ('[' :: (str "see: " ++ '[' :: (str "b" ++ ']' :: '(' ::
        (str "c" ++ ')' :: ']' :: '(' :: (str "d" ++ [')']))))) =
      str "[see: [b](c)](d)" ∧
    funyuString
      ('[' :: (str "see: " ++ '[' :: (str "b" ++ ']' :: '(' ::
        (str "c" ++ ')' :: ']' :: '(' :: (str "d" ++ [')']))))) =
      .error nestMsg ∧
    ('[' :: 'I' :: 'M' :: 'G' :: ':' ::
        (str "x" ++ '[' :: (str "b" ++ ']' :: '(' ::
          (str "c" ++ ')' :: ']' :: '(' :: (str "d" ++ [')']))))) =
      str "[IMG:x[b](c)](d)" ∧
    funyuString
      ('[' :: 'I' :: 'M' :: 'G' :: ':' ::
        (str "x" ++ '[' :: (str "b" ++ ']' :: '(' ::
          (str "c" ++ ')' :: ']' :: '(' :: (str "d" ++ [')']))))) =
      .error nestMsg :=
  ⟨by decide, by decide, by decide, by decide, by decide, by decide,
    C4_theorem.1 (str "see: ") (str "b") (str "c") (str "d")
      (by decide) (by decide) (by decide) (by decide) (by decide),
    by decide,
    C4_theorem.2.1 (str "x") (str "b") (str "c") (str "d")
      (by decide) (by decide) (by decide) (by decide)⟩

end FunyuProof
